import Mathlib

/-!
# taxcalc: progressive income tax over marginal brackets

A shallow embedding of `main.go`: the bracket type, the bracket loop of
`CalculateTax`, and `LoadConfig` with the comparison it sorts by.

`CalculateTax` is embedded twice.  In `CalculateTax` every `float64` of the
program is an exact rational (`ℚ`): its statements are statements of exact
arithmetic, or depend only on the order of the numbers.  In `CalculateTaxF` the
numbers are `float64` values (`F64`) with their rounding, infinities and NaN, for
the statements that depend on them.  A run that dereferences a nil `UpTo` ends in
a run-time panic; both embeddings return `none` for such a run and
`some (totalTax, taxDetails)` for a run that returns.
`LoadConfig` returns `(*TaxConfig, error)`; the embedding returns an `Except`.
-/

namespace TaxCalc

/-! ## Data model -/

/-- TaxBracket of `main.go`: a marginal rate in percent and an optional upper
bound (`UpTo = none` is the nil pointer: no upper limit). -/
structure TaxBracket where
  Rate : ℚ
  UpTo : Option ℚ
deriving DecidableEq, Repr

/-- TaxConfig of `main.go`. -/
structure TaxConfig where
  Brackets : List TaxBracket
deriving DecidableEq, Repr

/-- The breakdown `map[float64]float64`, held as a list of (rate, tax) entries
with strictly increasing keys, so that two breakdowns are the same map exactly
when they are the same list. -/
abbrev Breakdown := List (ℚ × ℚ)

/-- Assignment `m[k] = v` of a Go map: a new key is added, an existing key has its
value replaced. -/
def mapSet (k v : ℚ) : Breakdown → Breakdown
  | [] => [(k, v)]
  | e :: rest =>
    if k < e.1 then (k, v) :: e :: rest
    else if k = e.1 then (k, v) :: rest
    else e :: mapSet k v rest

/-- Lookup `m[k]` of a Go map, `none` for an absent key. -/
def mapGet (k : ℚ) : Breakdown → Option ℚ
  | [] => none
  | e :: rest => if k = e.1 then some e.2 else mapGet k rest

/-- Sum of the values of a breakdown. -/
def mapSum (m : Breakdown) : ℚ := (m.map Prod.snd).sum

/-- The keys of a breakdown are strictly increasing. -/
def KeysSorted (d : Breakdown) : Prop := d.Pairwise (fun a b => a.1 < b.1)

/-! ## CalculateTax -/

/-- The three local variables of `CalculateTax` that live across iterations. -/
structure LoopState where
  totalTax : ℚ
  taxDetails : Breakdown
  previousLimit : ℚ
deriving DecidableEq, Repr

/-- The `for _, bracket := range brackets` loop of `CalculateTax`, from a given
state.  `none` is the nil-pointer panic of `previousLimit = *bracket.UpTo`. -/
def calcLoop (income : ℚ) : List TaxBracket → LoopState → Option (ℚ × Breakdown)
  | [], s => some (s.totalTax, s.taxDetails)
  | bracket :: rest, s =>
    let taxableAmount := income - s.previousLimit
    let taxableAmount :=
      match bracket.UpTo with
      | some upTo =>
        if taxableAmount > upTo - s.previousLimit then upTo - s.previousLimit
        else taxableAmount
      | none => taxableAmount
    let taxForBracket := taxableAmount * (bracket.Rate / 100)
    let totalTax := if taxableAmount > 0 then s.totalTax + taxForBracket else s.totalTax
    let taxDetails :=
      if taxableAmount > 0 then mapSet bracket.Rate taxForBracket s.taxDetails
      else s.taxDetails
    match bracket.UpTo with
    | none => none
    | some previousLimit =>
      if bracket.UpTo = none ∨ income ≤ previousLimit then some (totalTax, taxDetails)
      else calcLoop income rest ⟨totalTax, taxDetails, previousLimit⟩

/-- CalculateTax of `main.go`: the loop started from `totalTax = 0`, an empty
map and `previousLimit = 0`. -/
def CalculateTax (income : ℚ) (brackets : List TaxBracket) : Option (ℚ × Breakdown) :=
  calcLoop income brackets ⟨0, [], 0⟩

/-! ## Notions of the specification -/

/-- BracketSet ordering invariant of the specification: the brackets with an upper
bound are in ascending order of upper bound, and a bracket without an upper bound
can only be the last one (so there is at most one). -/
def BracketSetOrdered : List TaxBracket → Prop
  | [] => True
  | [_] => True
  | a :: b :: rest =>
    (match a.UpTo, b.UpTo with
      | none, _ => False
      | some u, some v => u ≤ v
      | some _, none => True) ∧ BracketSetOrdered (b :: rest)

/-- Every bracket of the list has an upper bound, and the bounds are strictly
ascending above `prev`: `prev < b_1 < ... < b_n`.  With `prev = 0` this is a list
of bounded brackets with strictly ascending positive upper bounds. -/
def BoundedAscending (prev : ℚ) : List TaxBracket → Prop
  | [] => True
  | b :: rest => ∃ u, b.UpTo = some u ∧ prev < u ∧ BoundedAscending u rest

/-- The loop reaches a bracket without an upper bound: there is an index `k` whose
bracket has `UpTo = nil`, and every bracket at an index `j < k` has an upper bound
that is below the income. -/
def ReachesOpenEnded (income : ℚ) (bs : List TaxBracket) : Prop :=
  ∃ k : Fin bs.length, (bs.get k).UpTo = none ∧
    ∀ j : Fin bs.length, j < k → ∃ u ∈ (bs.get j).UpTo, u < income

/-- The upper bounds of the brackets that have one, in list order. -/
def upperBounds (bs : List TaxBracket) : List ℚ := bs.filterMap TaxBracket.UpTo

/-- The upper bound of the last bracket of the list, if there is one. -/
def lastBound (bs : List TaxBracket) : Option ℚ := bs.getLast?.bind TaxBracket.UpTo

/-- The marginal-rate reference sum over rates `r_1..r_n` and bounds `b_1..b_n`
with `b_0` given: the sum over `i` of `max(0, min(income, b_i) - b_(i-1)) * r_i / 100`. -/
def marginalSumFrom (b₀ income : ℚ) (rates bounds : List ℚ) : ℚ :=
  ∑ i in Finset.range bounds.length,
    max 0 (min income ((b₀ :: bounds).getD (i + 1) 0) - (b₀ :: bounds).getD i 0)
      * rates.getD i 0 / 100

/-- The marginal-rate reference sum of a bracket list, with `b_0 = 0`. -/
def marginalSum (income : ℚ) (bs : List TaxBracket) : ℚ :=
  marginalSumFrom 0 income (bs.map TaxBracket.Rate) (upperBounds bs)

/-! ## The loader's sort -/

/-- The comparison function `LoadConfig` passes to `sort.Slice` (lines 36 to 44),
on the brackets at positions `i` and `j`. -/
def bracketLess (a b : TaxBracket) : Bool :=
  match a.UpTo, b.UpTo with
  | none, _ => false
  | some _, none => true
  | some u, some v => decide (u < v)

/-- Insertion of `x` into a list ordered by `less`: before the first element that is
not less than `x`. -/
def insertOrdered {α : Type} (less : α → α → Bool) (x : α) : List α → List α
  | [] => [x]
  | y :: ys => if less y x then y :: insertOrdered less x ys else x :: y :: ys

/-- The call `sort.Slice(x, less)` of the Go standard library, modelled by an
insertion sort (the algorithm the library uses on short slices).  The library's
sort is not stable, so on longer slices elements that `less` does not order may come
out in another order than here; `OrderedBy` states what every output satisfies. -/
def sortSlice {α : Type} (less : α → α → Bool) : List α → List α
  | [] => []
  | x :: xs => insertOrdered less x (sortSlice less xs)

/-- The sort step of `LoadConfig`: `config.Brackets` after `sort.Slice`. -/
def sortBrackets (brackets : List TaxBracket) : List TaxBracket :=
  sortSlice bracketLess brackets

/-- A list is ordered by `less`: no element is less than an element before it. -/
def OrderedBy {α : Type} (less : α → α → Bool) (l : List α) : Prop :=
  l.Pairwise (fun a b => less b a = false)

/-- No bracket with an upper bound comes after a bracket without one. -/
def OpenEndedLast (bs : List TaxBracket) : Prop :=
  bs.Pairwise (fun a b => a.UpTo = none → b.UpTo = none)

/-- The brackets that have an upper bound appear in non-decreasing order of it. -/
def BoundsNonDecreasing (bs : List TaxBracket) : Prop :=
  (upperBounds bs).Pairwise (fun u v => u ≤ v)

/-! ## float64 values

The arithmetic of `float64` (IEEE 754 binary64, round to nearest, ties to even),
for the statements that depend on rounding, overflow or NaN.  A finite value is
`m * 2^e`; the two zeros are one value here (nothing in `CalculateTax` tells them
apart: it compares, adds, subtracts, multiplies and divides by the constant 100).
Every operation is rounded on its own (no fused multiply-add). -/

/-- A `float64` value: NaN, an infinity, or the finite number `m * 2^e`. -/
inductive F64 where
  | nan
  | inf (negative : Bool)
  | fin (m : ℤ) (e : ℤ)
deriving DecidableEq, Repr

namespace F64

/-- The first `k` among `k, 2k, 4k, ...` with `n < 2^(2k)`. -/
def log2Start : ℕ → ℕ → ℕ → ℕ
  | 0, k, _ => k
  | fuel + 1, k, n => if n < 2 ^ (2 * k) then k else log2Start fuel (2 * k) n

/-- The position of the highest binary digit of `n`, for `n < 2^(2k)`, found by
halving `k`. -/
def log2Halving : ℕ → ℕ → ℕ → ℕ
  | 0, _, _ => 0
  | fuel + 1, k, n =>
    if k = 0 then 0
    else if 2 ^ k ≤ n then k + log2Halving fuel (k / 2) (n / 2 ^ k)
    else log2Halving fuel (k / 2) n

/-- The position of the highest binary digit of `n`: `2^(log2 n) ≤ n < 2^(log2 n + 1)`
for `n > 0`. -/
def log2 (n : ℕ) : ℕ := log2Halving (log2Start n 1 n + 1) (log2Start n 1 n) n

/-- The binary exponent of `n / d`, for `n, d > 0`:
`2^(floorLog2 n d) ≤ n / d < 2^(floorLog2 n d + 1)`. -/
def floorLog2 (n d : ℕ) : ℤ :=
  let c : ℤ := (log2 n : ℤ) - (log2 d : ℤ)
  if 0 ≤ c then (if d * 2 ^ c.toNat ≤ n then c else c - 1)
  else (if d ≤ n * 2 ^ (-c).toNat then c else c - 1)

/-- The integer nearest to `n / d`, a tie going to the even one. -/
def roundHalfEven (n d : ℕ) : ℕ :=
  if 2 * (n % d) < d then n / d
  else if d < 2 * (n % d) then n / d + 1
  else if n / d % 2 = 0 then n / d else n / d + 1

/-- The finite value `± m * 2^e` with the factors of two moved from `m` (at most
`2^53`) into the exponent, so that equal values are written the same way. -/
def normalize (negative : Bool) (m : ℕ) (e : ℤ) : F64 :=
  if m = 0 then fin 0 0
  else
    fin (if negative then -((m / Nat.gcd m (2 ^ 53) : ℕ) : ℤ)
      else ((m / Nat.gcd m (2 ^ 53) : ℕ) : ℤ)) (e + (log2 (Nat.gcd m (2 ^ 53)) : ℤ))

/-- The `float64` nearest to the exact number `n / d`: 53 binary digits, or a
multiple of `2^-1074` below the normal range; an infinity from `2^1024` on. -/
def ofRatio (n : ℤ) (d : ℕ) : F64 :=
  if d = 0 then nan
  else if n = 0 then fin 0 0
  else
    let qe := max (floorLog2 n.natAbs d - 52) (-1074)
    let M := if 0 ≤ qe then roundHalfEven n.natAbs (d * 2 ^ qe.toNat)
      else roundHalfEven (n.natAbs * 2 ^ (-qe).toNat) d
    if 0 ≤ qe ∧ 2 ^ 1024 ≤ M * 2 ^ qe.toNat then inf (decide (n < 0))
    else normalize (decide (n < 0)) M qe

/-- The `float64` nearest to the exact number `m * 2^e / d`. -/
def ofScaled (m e : ℤ) (d : ℕ) : F64 :=
  if 0 ≤ e then ofRatio (m * ((2 ^ e.toNat : ℕ) : ℤ)) d else ofRatio m (d * 2 ^ (-e).toNat)

/-- The `float64` a decimal number `m * 10^e` becomes, as written in a JSON document
or typed as the income. -/
def ofDecimal (m e : ℤ) : F64 :=
  if 0 ≤ e then ofRatio (m * ((10 ^ e.toNat : ℕ) : ℤ)) 1 else ofRatio m (10 ^ (-e).toNat)

/-- The number zero. -/
def zero : F64 := fin 0 0

/-- Addition `x + y`. -/
def add : F64 → F64 → F64
  | nan, _ => nan
  | _, nan => nan
  | inf s, inf t => if s = t then inf s else nan
  | inf s, fin _ _ => inf s
  | fin _ _, inf t => inf t
  | fin m₁ e₁, fin m₂ e₂ =>
    ofScaled (m₁ * ((2 ^ (e₁ - min e₁ e₂).toNat : ℕ) : ℤ) + m₂ * ((2 ^ (e₂ - min e₁ e₂).toNat : ℕ) : ℤ)) (min e₁ e₂) 1

/-- Negation `-x`. -/
def neg : F64 → F64
  | nan => nan
  | inf s => inf (!s)
  | fin m e => fin (-m) e

/-- Subtraction `x - y`. -/
def sub (x y : F64) : F64 := add x (neg y)

/-- Multiplication `x * y`. -/
def mul : F64 → F64 → F64
  | nan, _ => nan
  | _, nan => nan
  | inf s, inf t => inf (s != t)
  | inf s, fin m _ => if m = 0 then nan else inf (s != decide (m < 0))
  | fin m _, inf t => if m = 0 then nan else inf (decide (m < 0) != t)
  | fin m₁ e₁, fin m₂ e₂ => ofScaled (m₁ * m₂) (e₁ + e₂) 1

/-- Division by the constant 100: `x / 100`. -/
def div100 : F64 → F64
  | nan => nan
  | inf s => inf s
  | fin m e => ofScaled m e 100

/-- The comparison `x < y`; false when an operand is NaN. -/
def lt : F64 → F64 → Bool
  | nan, _ => false
  | _, nan => false
  | inf s, inf t => s && !t
  | inf s, fin _ _ => s
  | fin _ _, inf t => !t
  | fin m₁ e₁, fin m₂ e₂ =>
    decide (m₁ * ((2 ^ (e₁ - min e₁ e₂).toNat : ℕ) : ℤ) < m₂ * ((2 ^ (e₂ - min e₁ e₂).toNat : ℕ) : ℤ))

/-- The comparison `x <= y`; false when an operand is NaN. -/
def le : F64 → F64 → Bool
  | nan, _ => false
  | _, nan => false
  | inf s, inf t => s || !t
  | inf s, fin _ _ => s
  | fin _ _, inf t => !t
  | fin m₁ e₁, fin m₂ e₂ =>
    decide (m₁ * ((2 ^ (e₁ - min e₁ e₂).toNat : ℕ) : ℤ) ≤ m₂ * ((2 ^ (e₂ - min e₁ e₂).toNat : ℕ) : ℤ))

/-- The comparison `x == y`, which decides whether two map keys are the same;
false when an operand is NaN. -/
def equal : F64 → F64 → Bool
  | nan, _ => false
  | _, nan => false
  | inf s, inf t => s == t
  | inf _, fin _ _ => false
  | fin _ _, inf _ => false
  | fin m₁ e₁, fin m₂ e₂ =>
    decide (m₁ * ((2 ^ (e₁ - min e₁ e₂).toNat : ℕ) : ℤ) = m₂ * ((2 ^ (e₂ - min e₁ e₂).toNat : ℕ) : ℤ))

end F64

/-- The exact rational number `q` as a JSON number or decimal input becomes when
it is read into a `float64`: the nearest `float64`, as a rational; `none` when
the number is beyond the range of `float64`. -/
def float64OfRat (q : ℚ) : Option ℚ :=
  match F64.ofRatio q.num q.den with
  | .fin m e => some ((m : ℚ) * 2 ^ e)
  | _ => none

/-! ## CalculateTax over float64 -/

/-- TaxBracket of `main.go`, its two fields as `float64` values. -/
structure TaxBracketF where
  Rate : F64
  UpTo : Option F64
deriving DecidableEq, Repr

/-- The breakdown `map[float64]float64`, its entries in the order in which their
keys were first assigned. -/
abbrev BreakdownF := List (F64 × F64)

/-- Assignment `m[k] = v` of a Go map with `float64` keys: the value of a key equal
to `k` is replaced, otherwise a new entry is added (always so for a NaN key). -/
def mapSetF (k v : F64) : BreakdownF → BreakdownF
  | [] => [(k, v)]
  | e :: rest => if F64.equal e.1 k then (e.1, v) :: rest else e :: mapSetF k v rest

/-- The local variables of `CalculateTax` that live across iterations. -/
structure LoopStateF where
  totalTax : F64
  taxDetails : BreakdownF
  previousLimit : F64
deriving DecidableEq, Repr

/-- The loop of `CalculateTax` in `float64` arithmetic; `none` is the nil-pointer
panic of `previousLimit = *bracket.UpTo`. -/
def calcLoopF (income : F64) : List TaxBracketF → LoopStateF → Option (F64 × BreakdownF)
  | [], s => some (s.totalTax, s.taxDetails)
  | bracket :: rest, s =>
    let taxableAmount := F64.sub income s.previousLimit
    let taxableAmount :=
      match bracket.UpTo with
      | some upTo =>
        if F64.lt (F64.sub upTo s.previousLimit) taxableAmount then F64.sub upTo s.previousLimit
        else taxableAmount
      | none => taxableAmount
    let taxForBracket := F64.mul taxableAmount (F64.div100 bracket.Rate)
    let totalTax :=
      if F64.lt F64.zero taxableAmount then F64.add s.totalTax taxForBracket else s.totalTax
    let taxDetails :=
      if F64.lt F64.zero taxableAmount then mapSetF bracket.Rate taxForBracket s.taxDetails
      else s.taxDetails
    match bracket.UpTo with
    | none => none
    | some previousLimit =>
      if bracket.UpTo = none ∨ F64.le income previousLimit = true then
        some (totalTax, taxDetails)
      else calcLoopF income rest ⟨totalTax, taxDetails, previousLimit⟩

/-- CalculateTax of `main.go` in `float64` arithmetic. -/
def CalculateTaxF (income : F64) (brackets : List TaxBracketF) : Option (F64 × BreakdownF) :=
  calcLoopF income brackets ⟨F64.zero, [], F64.zero⟩

/-- The loop reaches a bracket without an upper bound, in `float64`: there is an
index `k` whose bracket has `UpTo = nil`, and every bracket at an index `j < k`
has an upper bound for which the test `income <= bound` of the loop is false. -/
def ReachesOpenEndedF (income : F64) (bs : List TaxBracketF) : Prop :=
  ∃ k : Fin bs.length, (bs.get k).UpTo = none ∧
    ∀ j : Fin bs.length, j < k → ∃ u ∈ (bs.get j).UpTo, F64.le income u = false

/-- The condition in the words `income > upper bound`, in `float64`: there is an
index `k` whose bracket has `UpTo = nil`, and every bracket at an index `j < k`
has an upper bound with `income > bound`. -/
def ReachesOpenEndedAboveF (income : F64) (bs : List TaxBracketF) : Prop :=
  ∃ k : Fin bs.length, (bs.get k).UpTo = none ∧
    ∀ j : Fin bs.length, j < k → ∃ u ∈ (bs.get j).UpTo, F64.lt u income = true

/-! ## LoadConfig

`LoadConfig` reads a file, hands its bytes to `json.Unmarshal` and sorts the
brackets.  `os.ReadFile` and `encoding/json` belong to the Go standard library; they
are modelled here by their documented behaviour on the two struct types of
`main.go`.  Objects are taken with distinct member names.  A JSON number is given
by its exact value; read into a `float64` field it becomes the nearest `float64`
(`float64OfRat`), and a number beyond the range of `float64` is an error. -/

/-- A JSON value. -/
inductive JSON where
  | null
  | bool (b : Bool)
  | number (q : ℚ)
  | string (s : String)
  | array (items : List JSON)
  | object (members : List (String × JSON))

/-- What `LoadConfig` finds at the file name: the file cannot be read, its bytes
are not a JSON text, or they are a JSON document. -/
inductive FileContent where
  | unreadable
  | invalid
  | document (j : JSON)

/-- The errors `LoadConfig` returns: from `os.ReadFile`, and from `json.Unmarshal`
for bytes that are not JSON or for a value whose JSON type does not fit the Go type. -/
inductive LoadError where
  | readFailed
  | invalidJSON
  | typeMismatch
deriving DecidableEq, Repr

/-- Case folding of one character of a member name, as far as it can meet the
letters of `rate`, `up_to` and `brackets`. -/
def foldChar (c : Char) : Char :=
  if c = Char.ofNat 0x212A then 'k'
  else if c = Char.ofNat 0x017F then 's'
  else c.toLower

/-- The member name `key` selects the struct field tagged `field`: `encoding/json`
matches names without regard to case. -/
def keyMatches (field key : String) : Bool :=
  key.data.map foldChar == field.data.map foldChar

/-- Unmarshal into a `float64`: null leaves the value as it is, a number in the
range of `float64` sets it; a number beyond the range and any other JSON type are
an error. -/
def unmarshalFloat (target : ℚ) : JSON → Except LoadError ℚ
  | .null => .ok target
  | .number q =>
    match float64OfRat q with
    | some v => .ok v
    | none => .error .typeMismatch
  | _ => .error .typeMismatch

/-- Unmarshal into a `*float64`: null sets the pointer to nil, a number in the range
of `float64` sets the value pointed to; a number beyond the range and any other
JSON type are an error. -/
def unmarshalFloatPtr : JSON → Except LoadError (Option ℚ)
  | .null => .ok none
  | .number q =>
    match float64OfRat q with
    | some v => .ok (some v)
    | none => .error .typeMismatch
  | _ => .error .typeMismatch

/-- Unmarshal the members of a JSON object into a `TaxBracket`, in order: `rate`
fills `Rate`, `up_to` fills `UpTo`, any other member is ignored.  A field for
which the object has no member keeps the value it had. -/
def unmarshalBracketMembers (target : TaxBracket) :
    List (String × JSON) → Except LoadError TaxBracket
  | [] => .ok target
  | m :: rest =>
    if keyMatches "rate" m.1 then
      match unmarshalFloat target.Rate m.2 with
      | .error e => .error e
      | .ok r => unmarshalBracketMembers ⟨r, target.UpTo⟩ rest
    else if keyMatches "up_to" m.1 then
      match unmarshalFloatPtr m.2 with
      | .error e => .error e
      | .ok u => unmarshalBracketMembers ⟨target.Rate, u⟩ rest
    else unmarshalBracketMembers target rest

/-- Unmarshal into a `TaxBracket`: null leaves it as it is, an object fills its
fields, any other JSON type is an error. -/
def unmarshalBracket (target : TaxBracket) : JSON → Except LoadError TaxBracket
  | .null => .ok target
  | .object members => unmarshalBracketMembers target members
  | _ => .error .typeMismatch

/-- Unmarshal the elements of a JSON array into new `TaxBracket` values, which
start as the zero value (`Rate = 0`, `UpTo = nil`). -/
def unmarshalBracketItems : List JSON → Except LoadError (List TaxBracket)
  | [] => .ok []
  | j :: rest =>
    match unmarshalBracket ⟨0, none⟩ j with
    | .error e => .error e
    | .ok b =>
      match unmarshalBracketItems rest with
      | .error e => .error e
      | .ok bs => .ok (b :: bs)

/-- Unmarshal into a `[]TaxBracket`: null gives the nil slice, an array gives its
elements, any other JSON type is an error. -/
def unmarshalBrackets : JSON → Except LoadError (List TaxBracket)
  | .null => .ok []
  | .array items => unmarshalBracketItems items
  | _ => .error .typeMismatch

/-- Unmarshal the members of a JSON object into a `TaxConfig`: `brackets` fills
`Brackets`, any other member is ignored. -/
def unmarshalConfigMembers (target : TaxConfig) :
    List (String × JSON) → Except LoadError TaxConfig
  | [] => .ok target
  | m :: rest =>
    if keyMatches "brackets" m.1 then
      match unmarshalBrackets m.2 with
      | .error e => .error e
      | .ok bs => unmarshalConfigMembers ⟨bs⟩ rest
    else unmarshalConfigMembers target rest

/-- The call `json.Unmarshal(data, &config)` on a JSON document, with `config` the
zero `TaxConfig`. -/
def unmarshalConfig : JSON → Except LoadError TaxConfig
  | .null => .ok ⟨[]⟩
  | .object members => unmarshalConfigMembers ⟨[]⟩ members
  | _ => .error .typeMismatch

/-- LoadConfig of `main.go`: an error of `os.ReadFile` or of `json.Unmarshal` is
returned with no config; otherwise the brackets are sorted and the config returned. -/
def LoadConfig : FileContent → Except LoadError TaxConfig
  | .unreadable => .error .readFailed
  | .invalid => .error .invalidJSON
  | .document j =>
    match unmarshalConfig j with
    | .error e => .error e
    | .ok config => .ok ⟨sortBrackets config.Brackets⟩

/-- A bracket entry of a configuration document that has no `rate` member: an
empty object, or an object with only a numeric `up_to`. -/
def entryWithoutRate : Option ℚ → JSON
  | none => .object []
  | some u => .object [("up_to", .number u)]

/-- The JSON value fits a `float64` or `*float64` field: null, or a number in the
range of `float64`. -/
def FitsFloat : JSON → Prop
  | .null => True
  | .number q => float64OfRat q ≠ none
  | _ => False

/-- The JSON value fits a `TaxBracket`: null, or an object in which every member
named `rate` or `up_to` fits a `float64`. -/
def FitsBracket : JSON → Prop
  | .null => True
  | .object members =>
    ∀ m ∈ members, keyMatches "rate" m.1 = true ∨ keyMatches "up_to" m.1 = true → FitsFloat m.2
  | _ => False

/-- The JSON value fits a `[]TaxBracket`: null, or an array whose elements fit a
`TaxBracket`. -/
def FitsBrackets : JSON → Prop
  | .null => True
  | .array items => ∀ j ∈ items, FitsBracket j
  | _ => False

/-- The JSON document has the expected structure of a `TaxConfig`: null, or an
object in which every member named `brackets` fits a `[]TaxBracket`. -/
def FitsConfig : JSON → Prop
  | .null => True
  | .object members => ∀ m ∈ members, keyMatches "brackets" m.1 = true → FitsBrackets m.2
  | _ => False

/-! ## The writes of a run

The loop performs, for each bracket it processes with a positive taxable amount,
one addition to `totalTax` and one map assignment.  `writes` lists these
(rate, tax) pairs in order; it is `none` for a run that panics. -/

/-- Lines 56 to 59: the taxable amount of a bracket, given `previousLimit`. -/
def taxableAmount (income prev : ℚ) (upTo : Option ℚ) : ℚ :=
  match upTo with
  | some u => if income - prev > u - prev then u - prev else income - prev
  | none => income - prev

/-- The (rate, taxForBracket) pair a bracket adds, if its taxable amount is positive. -/
def bracketWrite (income prev : ℚ) (b : TaxBracket) : List (ℚ × ℚ) :=
  if taxableAmount income prev b.UpTo > 0 then
    [(b.Rate, taxableAmount income prev b.UpTo * (b.Rate / 100))]
  else []

/-- The sequence of (rate, taxForBracket) pairs a run of the loop adds, `none`
when the run panics. -/
def writes (income : ℚ) : ℚ → List TaxBracket → Option (List (ℚ × ℚ))
  | _, [] => some []
  | prev, b :: rest =>
    match b.UpTo with
    | none => none
    | some u =>
      if income ≤ u then some (bracketWrite income prev b)
      else (writes income u rest).map (fun w => bracketWrite income prev b ++ w)

/-- The value of `previousLimit` with which the loop leaves a prefix of the bracket
list, when it processes every bracket of the prefix and goes on; `none` when the
loop ends inside the prefix (by `break` or by the panic). -/
def limitAfter (income : ℚ) : ℚ → List TaxBracket → Option ℚ
  | prev, [] => some prev
  | _, b :: rest =>
    match b.UpTo with
    | none => none
    | some u => if income ≤ u then none else limitAfter income u rest

/-- The map after a sequence of assignments. -/
def applyWrites (d : Breakdown) (w : List (ℚ × ℚ)) : Breakdown :=
  w.foldl (fun m e => mapSet e.1 e.2 m) d

/-- Sum of the taxes of a sequence of writes. -/
def writesSum (w : List (ℚ × ℚ)) : ℚ := (w.map Prod.snd).sum

/-! ## Decidability of the predicates -/

instance BracketSetOrdered.instDecidable :
    (bs : List TaxBracket) → Decidable (BracketSetOrdered bs)
  | [] => isTrue trivial
  | [_] => isTrue trivial
  | ⟨_, none⟩ :: _ :: _ => isFalse (fun h => h.1)
  | ⟨_, some u⟩ :: ⟨rb, some v⟩ :: rest =>
    have := BracketSetOrdered.instDecidable (⟨rb, some v⟩ :: rest)
    (inferInstance : Decidable (u ≤ v ∧ BracketSetOrdered (⟨rb, some v⟩ :: rest)))
  | ⟨_, some _⟩ :: ⟨rb, none⟩ :: rest =>
    have := BracketSetOrdered.instDecidable (⟨rb, none⟩ :: rest)
    (inferInstance : Decidable (True ∧ BracketSetOrdered (⟨rb, none⟩ :: rest)))

instance BoundedAscending.instDecidable :
    (prev : ℚ) → (bs : List TaxBracket) → Decidable (BoundedAscending prev bs)
  | _, [] => isTrue trivial
  | _, ⟨_, none⟩ :: _ => isFalse (fun ⟨_, hu, _⟩ => by cases hu)
  | prev, ⟨_, some u⟩ :: rest =>
    have := BoundedAscending.instDecidable u rest
    decidable_of_iff (prev < u ∧ BoundedAscending u rest)
      ⟨fun ⟨h1, h2⟩ => ⟨u, rfl, h1, h2⟩, fun ⟨_, hv, h1, h2⟩ => by cases hv; exact ⟨h1, h2⟩⟩

instance KeysSorted.instDecidable (d : Breakdown) : Decidable (KeysSorted d) :=
  (inferInstance : Decidable (d.Pairwise (fun a b => a.1 < b.1)))

instance OrderedBy.instDecidable {α : Type} (less : α → α → Bool) (l : List α) :
    Decidable (OrderedBy less l) :=
  (inferInstance : Decidable (l.Pairwise (fun a b => less b a = false)))

instance OpenEndedLast.instDecidable (bs : List TaxBracket) : Decidable (OpenEndedLast bs) :=
  (inferInstance : Decidable (bs.Pairwise (fun a b => a.UpTo = none → b.UpTo = none)))

instance BoundsNonDecreasing.instDecidable (bs : List TaxBracket) :
    Decidable (BoundsNonDecreasing bs) :=
  (inferInstance : Decidable ((upperBounds bs).Pairwise (fun u v => u ≤ v)))

instance ReachesOpenEnded.instDecidable (income : ℚ) (bs : List TaxBracket) :
    Decidable (ReachesOpenEnded income bs) :=
  (inferInstance : Decidable (∃ k : Fin bs.length, (bs.get k).UpTo = none ∧
    ∀ j : Fin bs.length, j < k → ∃ u ∈ (bs.get j).UpTo, u < income))

instance ReachesOpenEndedF.instDecidable (income : F64) (bs : List TaxBracketF) :
    Decidable (ReachesOpenEndedF income bs) :=
  (inferInstance : Decidable (∃ k : Fin bs.length, (bs.get k).UpTo = none ∧
    ∀ j : Fin bs.length, j < k → ∃ u ∈ (bs.get j).UpTo, F64.le income u = false))

instance ReachesOpenEndedAboveF.instDecidable (income : F64) (bs : List TaxBracketF) :
    Decidable (ReachesOpenEndedAboveF income bs) :=
  (inferInstance : Decidable (∃ k : Fin bs.length, (bs.get k).UpTo = none ∧
    ∀ j : Fin bs.length, j < k → ∃ u ∈ (bs.get j).UpTo, F64.lt u income = true))

instance FitsFloat.instDecidable : (j : JSON) → Decidable (FitsFloat j)
  | .null => isTrue trivial
  | .number q => (inferInstance : Decidable (float64OfRat q ≠ none))
  | .bool _ => isFalse id
  | .string _ => isFalse id
  | .array _ => isFalse id
  | .object _ => isFalse id

instance FitsBracket.instDecidable : (j : JSON) → Decidable (FitsBracket j)
  | .null => isTrue trivial
  | .object members =>
    (inferInstance : Decidable (∀ m ∈ members,
      keyMatches "rate" m.1 = true ∨ keyMatches "up_to" m.1 = true → FitsFloat m.2))
  | .bool _ => isFalse id
  | .number _ => isFalse id
  | .string _ => isFalse id
  | .array _ => isFalse id

instance FitsBrackets.instDecidable : (j : JSON) → Decidable (FitsBrackets j)
  | .null => isTrue trivial
  | .array items => (inferInstance : Decidable (∀ j ∈ items, FitsBracket j))
  | .bool _ => isFalse id
  | .number _ => isFalse id
  | .string _ => isFalse id
  | .object _ => isFalse id

instance FitsConfig.instDecidable : (j : JSON) → Decidable (FitsConfig j)
  | .null => isTrue trivial
  | .object members =>
    (inferInstance : Decidable (∀ m ∈ members,
      keyMatches "brackets" m.1 = true → FitsBrackets m.2))
  | .bool _ => isFalse id
  | .number _ => isFalse id
  | .string _ => isFalse id
  | .array _ => isFalse id

/-! ## First facts about the loop -/

theorem writes_cons_some (income prev r u : ℚ) (rest : List TaxBracket) :
    writes income prev (⟨r, some u⟩ :: rest) =
      if income ≤ u then some (bracketWrite income prev ⟨r, some u⟩)
      else (writes income u rest).map (fun w => bracketWrite income prev ⟨r, some u⟩ ++ w) := rfl

theorem writes_cons_none (income prev r : ℚ) (rest : List TaxBracket) :
    writes income prev (⟨r, none⟩ :: rest) = none := rfl

theorem applyWrites_nil (d : Breakdown) : applyWrites d [] = d := rfl

theorem applyWrites_cons (d : Breakdown) (e : ℚ × ℚ) (w : List (ℚ × ℚ)) :
    applyWrites d (e :: w) = applyWrites (mapSet e.1 e.2 d) w := rfl

theorem applyWrites_append (d : Breakdown) (w₁ w₂ : List (ℚ × ℚ)) :
    applyWrites d (w₁ ++ w₂) = applyWrites (applyWrites d w₁) w₂ := by
  simp [applyWrites, List.foldl_append]

theorem writesSum_nil : writesSum [] = 0 := rfl

theorem writesSum_cons (e : ℚ × ℚ) (w : List (ℚ × ℚ)) :
    writesSum (e :: w) = e.2 + writesSum w := by
  simp [writesSum]

theorem writesSum_append (w₁ w₂ : List (ℚ × ℚ)) :
    writesSum (w₁ ++ w₂) = writesSum w₁ + writesSum w₂ := by
  simp [writesSum]

theorem calcLoop_nil (income : ℚ) (s : LoopState) :
    calcLoop income [] s = some (s.totalTax, s.taxDetails) := rfl

/-- One iteration at a bracket without an upper bound: the dereference panics. -/
theorem calcLoop_open (income r : ℚ) (rest : List TaxBracket) (s : LoopState) :
    calcLoop income (⟨r, none⟩ :: rest) s = none := rfl

/-- One iteration at a bracket with an upper bound. -/
theorem calcLoop_bounded (income r u : ℚ) (rest : List TaxBracket) (s : LoopState) :
    calcLoop income (⟨r, some u⟩ :: rest) s =
      if income ≤ u then
        some (s.totalTax + writesSum (bracketWrite income s.previousLimit ⟨r, some u⟩),
          applyWrites s.taxDetails (bracketWrite income s.previousLimit ⟨r, some u⟩))
      else
        calcLoop income rest
          ⟨s.totalTax + writesSum (bracketWrite income s.previousLimit ⟨r, some u⟩),
            applyWrites s.taxDetails (bracketWrite income s.previousLimit ⟨r, some u⟩), u⟩ := by
  by_cases hle : income ≤ u <;>
    by_cases hpos : (if income - s.previousLimit > u - s.previousLimit
      then u - s.previousLimit else income - s.previousLimit) > 0 <;>
    simp only [calcLoop, bracketWrite, taxableAmount, hle, hpos, if_true, if_false, or_true,
      false_or, reduceCtorEq, writesSum_cons, writesSum_nil, applyWrites_cons, applyWrites_nil,
      add_zero]

/-- The loop returns exactly what its writes say: the total grows by their sum and
the map receives them in order; the loop panics exactly when `writes` is `none`. -/
theorem calcLoop_eq_writes (income : ℚ) (bs : List TaxBracket) (s : LoopState) :
    calcLoop income bs s =
      (writes income s.previousLimit bs).map
        (fun w => (s.totalTax + writesSum w, applyWrites s.taxDetails w)) := by
  induction bs generalizing s with
  | nil => simp [calcLoop, writes, writesSum_nil, applyWrites_nil]
  | cons b rest ih =>
    rcases b with ⟨r, _ | u⟩
    · simp [calcLoop, writes]
    · rw [calcLoop_bounded]
      by_cases hle : income ≤ u
      · simp [writes, hle]
      · simp only [writes, hle, if_false, ih, Option.map_map]
        cases writes income u rest with
        | none => rfl
        | some w => simp [writesSum_append, applyWrites_append, add_assoc]

theorem CalculateTax_eq_writes (income : ℚ) (bs : List TaxBracket) :
    CalculateTax income bs =
      (writes income 0 bs).map (fun w => (writesSum w, applyWrites [] w)) := by
  simp [CalculateTax, calcLoop_eq_writes]

/-! ## Lists of bounded brackets -/

theorem marginalSumFrom_nil (b₀ income : ℚ) (rates : List ℚ) :
    marginalSumFrom b₀ income rates [] = 0 := by
  simp [marginalSumFrom]

theorem marginalSumFrom_cons (b₀ income r u : ℚ) (rates bounds : List ℚ) :
    marginalSumFrom b₀ income (r :: rates) (u :: bounds) =
      max 0 (min income u - b₀) * r / 100 + marginalSumFrom u income rates bounds := by
  simp only [marginalSumFrom, List.length_cons, Finset.sum_range_succ']
  rw [add_comm]
  simp

theorem marginalSumFrom_of_le (income : ℚ) (bs : List TaxBracket) (prev : ℚ)
    (hasc : BoundedAscending prev bs) (hle : income ≤ prev) :
    marginalSumFrom prev income (bs.map TaxBracket.Rate) (upperBounds bs) = 0 := by
  induction bs generalizing prev with
  | nil => simp [upperBounds, marginalSumFrom_nil]
  | cons b rest ih =>
    obtain ⟨u, hu, hlt, hrest⟩ := hasc
    have hup : upperBounds (b :: rest) = u :: upperBounds rest := by
      simp [upperBounds, List.filterMap_cons, hu]
    rw [List.map_cons, hup, marginalSumFrom_cons, ih u hrest (le_of_lt (lt_of_le_of_lt hle hlt))]
    have h1 : min income u - prev ≤ 0 := by
      have := min_le_left income u
      linarith
    simp [max_eq_left h1]

/-- The taxable amount of a bounded bracket is `min(income, bound) - previousLimit`. -/
theorem taxableAmount_some (income prev u : ℚ) :
    taxableAmount income prev (some u) = min income u - prev := by
  simp only [taxableAmount]
  split_ifs with h
  · rw [min_eq_right (by linarith)]
  · rw [min_eq_left (by linarith)]

theorem writesSum_bracketWrite (income prev r u : ℚ) :
    writesSum (bracketWrite income prev ⟨r, some u⟩) =
      max 0 (min income u - prev) * r / 100 := by
  simp only [bracketWrite, taxableAmount_some]
  split_ifs with h
  · rw [writesSum_cons, writesSum_nil, max_eq_right (le_of_lt h)]
    ring
  · rw [writesSum_nil, max_eq_left (not_lt.mp h)]
    ring

/-- A run over bounded ascending brackets returns, and the sum of its writes is the
marginal-rate reference sum. -/
theorem writes_boundedAscending (income : ℚ) (bs : List TaxBracket) (prev : ℚ)
    (hasc : BoundedAscending prev bs) :
    ∃ w, writes income prev bs = some w ∧
      writesSum w = marginalSumFrom prev income (bs.map TaxBracket.Rate) (upperBounds bs) := by
  induction bs generalizing prev with
  | nil => exact ⟨[], rfl, by simp [upperBounds, marginalSumFrom_nil, writesSum_nil]⟩
  | cons b rest ih =>
    obtain ⟨u, hu, hlt, hrest⟩ := hasc
    rcases b with ⟨r, ub⟩
    simp only at hu
    subst hu
    have hup : upperBounds (⟨r, some u⟩ :: rest) = u :: upperBounds rest := by
      simp [upperBounds, List.filterMap_cons]
    rw [List.map_cons, hup, marginalSumFrom_cons]
    by_cases hle : income ≤ u
    · refine ⟨bracketWrite income prev ⟨r, some u⟩, by simp [writes, hle], ?_⟩
      rw [writesSum_bracketWrite, marginalSumFrom_of_le income rest u hrest hle, add_zero]
    · obtain ⟨w, hw, hsum⟩ := ih u hrest
      refine ⟨bracketWrite income prev ⟨r, some u⟩ ++ w, by simp [writes, hle, hw], ?_⟩
      rw [writesSum_append, writesSum_bracketWrite, hsum]

theorem lastBound_singleton (b : TaxBracket) : lastBound [b] = b.UpTo := by
  simp [lastBound]

theorem lastBound_cons_cons (a b : TaxBracket) (rest : List TaxBracket) :
    lastBound (a :: b :: rest) = lastBound (b :: rest) := by
  simp [lastBound, List.getLast?_cons_cons]

/-- The last bound of a bounded ascending list lies above its starting point. -/
theorem lt_lastBound (bs : List TaxBracket) (prev top : ℚ)
    (hasc : BoundedAscending prev bs) (hlast : lastBound bs = some top) : prev < top := by
  induction bs generalizing prev with
  | nil => simp [lastBound] at hlast
  | cons b rest ih =>
    obtain ⟨u, hu, hlt, hrest⟩ := hasc
    cases rest with
    | nil =>
      rw [lastBound_singleton, hu] at hlast
      cases hlast
      exact hlt
    | cons c rest2 =>
      rw [lastBound_cons_cons] at hlast
      exact lt_trans hlt (ih u hrest hlast)

/-- When income equals the last bound of a bounded ascending prefix, the loop stops
at the end of the prefix: what follows is never reached. -/
theorem writes_append_of_lastBound (income : ℚ) (pre post : List TaxBracket) (prev : ℚ)
    (hasc : BoundedAscending prev pre) (hlast : lastBound pre = some income) :
    writes income prev (pre ++ post) = writes income prev pre := by
  induction pre generalizing prev with
  | nil => simp [lastBound] at hlast
  | cons b rest ih =>
    obtain ⟨u, hu, hlt, hrest⟩ := hasc
    cases rest with
    | nil =>
      rw [lastBound_singleton, hu] at hlast
      cases hlast
      simp [writes, hu]
    | cons c rest2 =>
      rw [lastBound_cons_cons] at hlast
      rcases b with ⟨r, ub⟩
      simp only at hu
      subst hu
      rw [List.cons_append, writes_cons_some, writes_cons_some, ih u hrest hlast]

/-- Above the top bound of a bounded ascending list, the writes do not depend on
the income. -/
theorem writes_above_top (income top : ℚ) (bs : List TaxBracket) (prev : ℚ)
    (hasc : BoundedAscending prev bs) (hlast : lastBound bs = some top) (habove : top < income) :
    writes income prev bs = writes top prev bs := by
  induction bs generalizing prev with
  | nil => simp [lastBound] at hlast
  | cons b rest ih =>
    obtain ⟨u, hu, hlt, hrest⟩ := hasc
    rcases b with ⟨r, ub⟩
    simp only at hu
    subst hu
    have hw : ∀ x : ℚ, u ≤ x →
        bracketWrite x prev ⟨r, some u⟩ = bracketWrite u prev ⟨r, some u⟩ := by
      intro x hx
      simp only [bracketWrite, taxableAmount_some, min_eq_right hx, min_self]
    cases rest with
    | nil =>
      rw [lastBound_singleton] at hlast
      cases hlast
      simp [writes, not_le.mpr habove, hw income (le_of_lt habove)]
    | cons c rest2 =>
      rw [lastBound_cons_cons] at hlast
      have hu_top : u < top := lt_lastBound _ u top hrest hlast
      have h := ih u hrest hlast
      rw [writes_cons_some, writes_cons_some, if_neg (not_le.mpr (lt_trans hu_top habove)),
        if_neg (not_le.mpr hu_top), hw income (le_of_lt (lt_trans hu_top habove)),
        hw top (le_of_lt hu_top), h]

/-! ## The breakdown map -/

theorem mapSum_nil : mapSum [] = 0 := rfl

theorem mapSum_cons (e : ℚ × ℚ) (d : Breakdown) : mapSum (e :: d) = e.2 + mapSum d := by
  simp [mapSum]

theorem mem_mapSet (k v : ℚ) (d : Breakdown) (e : ℚ × ℚ) (he : e ∈ mapSet k v d) :
    e = (k, v) ∨ e ∈ d := by
  induction d with
  | nil => simpa [mapSet] using he
  | cons a rest ih =>
    simp only [mapSet] at he
    split_ifs at he with h1 h2
    · rcases List.mem_cons.mp he with h | h
      · exact Or.inl h
      · exact Or.inr h
    · rcases List.mem_cons.mp he with h | h
      · exact Or.inl h
      · exact Or.inr (List.mem_cons_of_mem _ h)
    · rcases List.mem_cons.mp he with h | h
      · exact Or.inr (h ▸ List.mem_cons_self _ _)
      · rcases ih h with h' | h'
        · exact Or.inl h'
        · exact Or.inr (List.mem_cons_of_mem _ h')

theorem keysSorted_mapSet (k v : ℚ) (d : Breakdown) (hs : KeysSorted d) :
    KeysSorted (mapSet k v d) := by
  induction d with
  | nil => simp [mapSet, KeysSorted]
  | cons a rest ih =>
    have hs' := List.pairwise_cons.mp hs
    simp only [mapSet]
    split_ifs with h1 h2
    · refine List.pairwise_cons.mpr ⟨?_, hs⟩
      intro e he
      rcases List.mem_cons.mp he with h | h
      · rw [h]
        exact h1
      · exact lt_trans h1 (hs'.1 e h)
    · refine List.pairwise_cons.mpr ⟨?_, hs'.2⟩
      intro e he
      rw [h2]
      exact hs'.1 e he
    · refine List.pairwise_cons.mpr ⟨?_, ih hs'.2⟩
      intro e he
      rcases mem_mapSet k v rest e he with h | h
      · rw [h]
        exact lt_of_le_of_ne (not_lt.mp h1) (Ne.symm h2)
      · exact hs'.1 e h

theorem mapGet_eq_none_of_lt (k : ℚ) (d : Breakdown) (h : ∀ e ∈ d, k < e.1) :
    mapGet k d = none := by
  induction d with
  | nil => rfl
  | cons a rest ih =>
    simp only [mapGet]
    rw [if_neg (ne_of_lt (h a (List.mem_cons_self _ _)))]
    exact ih (fun e he => h e (List.mem_cons_of_mem _ he))

theorem mapGet_mapSet_self (k v : ℚ) (d : Breakdown) : mapGet k (mapSet k v d) = some v := by
  induction d with
  | nil => simp [mapSet, mapGet]
  | cons a rest ih =>
    simp only [mapSet]
    split_ifs with h1 h2
    · simp [mapGet]
    · simp [mapGet]
    · simp [mapGet, h2, ih]

theorem mapGet_mapSet_of_ne (k k' v : ℚ) (d : Breakdown) (hne : k' ≠ k) :
    mapGet k' (mapSet k v d) = mapGet k' d := by
  induction d with
  | nil => simp [mapSet, mapGet, hne]
  | cons a rest ih =>
    simp only [mapSet]
    split_ifs with h1 h2
    · simp [mapGet, hne]
    · simp [mapGet, hne, ← h2]
    · simp [mapGet, ih]

/-- An assignment changes the sum of the values by the new value minus the value it
replaces. -/
theorem mapSum_mapSet (k v : ℚ) (d : Breakdown) (hs : KeysSorted d) :
    mapSum (mapSet k v d) = mapSum d - (mapGet k d).getD 0 + v := by
  induction d with
  | nil => simp [mapSet, mapGet, mapSum]
  | cons a rest ih =>
    have hs' := List.pairwise_cons.mp hs
    simp only [mapSet]
    split_ifs with h1 h2
    · have hnone : mapGet k (a :: rest) = none := by
        apply mapGet_eq_none_of_lt
        intro e he
        rcases List.mem_cons.mp he with h | h
        · rw [h]
          exact h1
        · exact lt_trans h1 (hs'.1 e h)
      rw [hnone, mapSum_cons]
      simp
      ring
    · simp only [mapSum_cons, mapGet, h2, if_true, Option.getD_some]
      ring
    · simp only [mapSum_cons, mapGet, h2, if_false, ih hs'.2]
      ring

theorem keysSorted_applyWrites (d : Breakdown) (w : List (ℚ × ℚ)) (hs : KeysSorted d) :
    KeysSorted (applyWrites d w) := by
  induction w generalizing d with
  | nil => exact hs
  | cons e w ih => exact ih _ (keysSorted_mapSet e.1 e.2 d hs)

theorem mapGet_applyWrites_of_not_mem (k : ℚ) (d : Breakdown) (w : List (ℚ × ℚ))
    (hk : ∀ e ∈ w, e.1 ≠ k) : mapGet k (applyWrites d w) = mapGet k d := by
  induction w generalizing d with
  | nil => rfl
  | cons e w ih =>
    rw [applyWrites_cons, ih _ (fun e' he' => hk e' (List.mem_cons_of_mem _ he')),
      mapGet_mapSet_of_ne _ _ _ _ (Ne.symm (hk e (List.mem_cons_self _ _)))]

/-- Writes under pairwise distinct keys, none of them in the map yet, add up. -/
theorem mapSum_applyWrites_of_nodup (d : Breakdown) (w : List (ℚ × ℚ)) (hs : KeysSorted d)
    (hnd : (w.map Prod.fst).Nodup) (hnew : ∀ e ∈ w, mapGet e.1 d = none) :
    mapSum (applyWrites d w) = mapSum d + writesSum w := by
  induction w generalizing d with
  | nil => simp [applyWrites_nil, writesSum_nil]
  | cons e w ih =>
    rw [List.map_cons, List.nodup_cons] at hnd
    rw [applyWrites_cons, ih _ (keysSorted_mapSet e.1 e.2 d hs) hnd.2, mapSum_mapSet _ _ _ hs,
      hnew e (List.mem_cons_self _ _), writesSum_cons]
    · simp
      ring
    · intro e' he'
      have hne : e'.1 ≠ e.1 := by
        intro h
        exact hnd.1 (h ▸ List.mem_map_of_mem Prod.fst he')
      rw [mapGet_mapSet_of_ne _ _ _ _ hne]
      exact hnew e' (List.mem_cons_of_mem _ he')

theorem mem_of_mapGet (k v : ℚ) (d : Breakdown) (h : mapGet k d = some v) : (k, v) ∈ d := by
  induction d with
  | nil => simp [mapGet] at h
  | cons a rest ih =>
    simp only [mapGet] at h
    split_ifs at h with hk
    · simp only [Option.some.injEq] at h
      rw [hk, ← h]
      exact List.mem_cons_self _ _
    · exact List.mem_cons_of_mem _ (ih h)

theorem mapGet_getD_nonneg (k : ℚ) (d : Breakdown) (hd : ∀ e ∈ d, 0 ≤ e.2) :
    0 ≤ (mapGet k d).getD 0 := by
  cases h : mapGet k d with
  | none => simp
  | some v => simpa using hd (k, v) (mem_of_mapGet k v d h)

theorem nonneg_mapSet (k v : ℚ) (d : Breakdown) (hd : ∀ e ∈ d, 0 ≤ e.2) (hv : 0 ≤ v) :
    ∀ e ∈ mapSet k v d, 0 ≤ e.2 := by
  intro e he
  rcases mem_mapSet k v d e he with h | h
  · rw [h]
    exact hv
  · exact hd e h

/-- With values that are not negative, the sum of the map grows by at most the sum
of the writes. -/
theorem mapSum_applyWrites_le (d : Breakdown) (w : List (ℚ × ℚ)) (hs : KeysSorted d)
    (hd : ∀ e ∈ d, 0 ≤ e.2) (hw : ∀ e ∈ w, 0 ≤ e.2) :
    mapSum (applyWrites d w) ≤ mapSum d + writesSum w := by
  induction w generalizing d with
  | nil => simp [applyWrites_nil, writesSum_nil]
  | cons e w ih =>
    have he := hw e (List.mem_cons_self _ _)
    have h1 := ih (mapSet e.1 e.2 d) (keysSorted_mapSet e.1 e.2 d hs)
      (nonneg_mapSet e.1 e.2 d hd he) (fun e' he' => hw e' (List.mem_cons_of_mem _ he'))
    have h2 := mapSum_mapSet e.1 e.2 d hs
    have h3 := mapGet_getD_nonneg e.1 d hd
    rw [applyWrites_cons, writesSum_cons]
    linarith

/-- A value that is in the map under a key written again later is lost from the
sum of the map, while the sum of the writes keeps it. -/
theorem mapSum_applyWrites_overwrite (r v : ℚ) (d : Breakdown) (w : List (ℚ × ℚ))
    (hs : KeysSorted d) (hd : ∀ e ∈ d, 0 ≤ e.2) (hw : ∀ e ∈ w, 0 ≤ e.2)
    (hget : mapGet r d = some v) (hr : ∃ e ∈ w, e.1 = r) :
    mapSum (applyWrites d w) + v ≤ mapSum d + writesSum w := by
  induction w generalizing d with
  | nil =>
    obtain ⟨e, he, _⟩ := hr
    simp at he
  | cons e w ih =>
    have he := hw e (List.mem_cons_self _ _)
    have hw' : ∀ e' ∈ w, 0 ≤ e'.2 := fun e' he' => hw e' (List.mem_cons_of_mem _ he')
    have hs' := keysSorted_mapSet e.1 e.2 d hs
    have hd' := nonneg_mapSet e.1 e.2 d hd he
    have h2 := mapSum_mapSet e.1 e.2 d hs
    rw [applyWrites_cons, writesSum_cons]
    by_cases hk : e.1 = r
    · have h1 := mapSum_applyWrites_le (mapSet e.1 e.2 d) w hs' hd' hw'
      rw [hk, hget] at h2
      simp only [Option.getD_some] at h2
      rw [hk] at h1
      rw [hk]
      linarith
    · have hr' : ∃ e' ∈ w, e'.1 = r := by
        obtain ⟨e', he', hk'⟩ := hr
        rcases List.mem_cons.mp he' with h | h
        · exact absurd (h ▸ hk') hk
        · exact ⟨e', h, hk'⟩
      have hget' : mapGet r (mapSet e.1 e.2 d) = some v := by
        rw [mapGet_mapSet_of_ne _ _ _ _ (Ne.symm hk)]
        exact hget
      have h1 := ih (mapSet e.1 e.2 d) hs' hd' hw' hget' hr'
      have h3 := mapGet_getD_nonneg e.1 d hd
      linarith

theorem nonneg_applyWrites (d : Breakdown) (w : List (ℚ × ℚ)) (hd : ∀ e ∈ d, 0 ≤ e.2)
    (hw : ∀ e ∈ w, 0 ≤ e.2) : ∀ e ∈ applyWrites d w, 0 ≤ e.2 := by
  induction w generalizing d with
  | nil => exact hd
  | cons a w ih =>
    exact ih (mapSet a.1 a.2 d) (nonneg_mapSet a.1 a.2 d hd (hw a (List.mem_cons_self _ _)))
      (fun e' he' => hw e' (List.mem_cons_of_mem _ he'))

/-- Two writes under one key: the map built from the writes holds the later one
(when nothing after it uses the key), and the sum of the map misses the earlier one. -/
theorem applyWrites_two_writes (r vx vy : ℚ) (w₁ w₂ w₃ : List (ℚ × ℚ))
    (hw : ∀ e ∈ w₁ ++ (r, vx) :: (w₂ ++ (r, vy) :: w₃), 0 ≤ e.2) :
    mapSum (applyWrites [] (w₁ ++ (r, vx) :: (w₂ ++ (r, vy) :: w₃))) + vx ≤
        writesSum (w₁ ++ (r, vx) :: (w₂ ++ (r, vy) :: w₃)) ∧
      ((∀ e ∈ w₃, e.1 ≠ r) →
        mapGet r (applyWrites [] (w₁ ++ (r, vx) :: (w₂ ++ (r, vy) :: w₃))) = some vy) := by
  have hw₁ : ∀ e ∈ w₁, 0 ≤ e.2 := fun e he => hw e (List.mem_append_left _ he)
  have hvx : 0 ≤ vx := hw (r, vx) (List.mem_append_right _ (List.mem_cons_self _ _))
  have hrest : ∀ e ∈ w₂ ++ (r, vy) :: w₃, 0 ≤ e.2 := fun e he =>
    hw e (List.mem_append_right _ (List.mem_cons_of_mem _ he))
  have hs₁ : KeysSorted (applyWrites [] w₁) := keysSorted_applyWrites [] w₁ List.Pairwise.nil
  have hn₁ : ∀ e ∈ applyWrites [] w₁, 0 ≤ e.2 := nonneg_applyWrites [] w₁ (by simp) hw₁
  have hd₁ : ∀ e ∈ mapSet r vx (applyWrites [] w₁), 0 ≤ e.2 := nonneg_mapSet r vx _ hn₁ hvx
  constructor
  · have h1 := mapSum_applyWrites_le [] w₁ List.Pairwise.nil (by simp) hw₁
    have h2 := mapSum_mapSet r vx (applyWrites [] w₁) hs₁
    have h3 := mapGet_getD_nonneg r (applyWrites [] w₁) hn₁
    have h4 := mapSum_applyWrites_overwrite r vx (mapSet r vx (applyWrites [] w₁))
      (w₂ ++ (r, vy) :: w₃) (keysSorted_mapSet r vx _ hs₁) hd₁ hrest
      (mapGet_mapSet_self r vx _) ⟨(r, vy), List.mem_append_right _ (List.mem_cons_self _ _), rfl⟩
    rw [applyWrites_append, applyWrites_cons, writesSum_append, writesSum_cons]
    rw [mapSum_nil] at h1
    simp only at h4 ⊢
    linarith
  · intro h₃
    rw [applyWrites_append, applyWrites_cons, applyWrites_append, applyWrites_cons,
      mapGet_applyWrites_of_not_mem r _ w₃ h₃]
    exact mapGet_mapSet_self r vy _

/-- The keys written by a run are rates of the brackets, in list order. -/
theorem writes_keys_sublist (income : ℚ) (bs : List TaxBracket) (prev : ℚ) (w : List (ℚ × ℚ))
    (hw : writes income prev bs = some w) :
    (w.map Prod.fst).Sublist (bs.map TaxBracket.Rate) := by
  induction bs generalizing prev w with
  | nil =>
    simp only [writes, Option.some.injEq] at hw
    subst hw
    simp
  | cons b rest ih =>
    rcases b with ⟨r, _ | u⟩
    · simp [writes] at hw
    · have hbw : ((bracketWrite income prev ⟨r, some u⟩).map Prod.fst).Sublist [r] := by
        simp only [bracketWrite]
        split_ifs <;> simp
      rw [writes_cons_some] at hw
      split_ifs at hw with hle
      · simp only [Option.some.injEq] at hw
        subst hw
        exact hbw.trans (by simp)
      · cases hrest : writes income u rest with
        | none => simp [hrest] at hw
        | some w' =>
          simp only [hrest, Option.map_some', Option.some.injEq] at hw
          subst hw
          rw [List.map_append, List.map_cons]
          exact (hbw.append (ih u w' hrest))

theorem limitAfter_cons_some (income prev r u : ℚ) (rest : List TaxBracket) :
    limitAfter income prev (⟨r, some u⟩ :: rest) =
      if income ≤ u then none else limitAfter income u rest := rfl

theorem limitAfter_append (income : ℚ) (as bs : List TaxBracket) (prev : ℚ) :
    limitAfter income prev (as ++ bs) =
      (limitAfter income prev as).bind (fun p => limitAfter income p bs) := by
  induction as generalizing prev with
  | nil => simp [limitAfter]
  | cons a rest ih =>
    rcases a with ⟨r, _ | u⟩
    · simp [limitAfter]
    · rw [List.cons_append, limitAfter_cons_some, limitAfter_cons_some]
      split_ifs
      · rfl
      · exact ih u

/-- Behind a prefix the loop passes, the run goes on from the limit the prefix
leaves, and the writes of the prefix come first. -/
theorem writes_append_of_limitAfter (income : ℚ) (as : List TaxBracket) (prev p : ℚ)
    (hp : limitAfter income prev as = some p) :
    ∃ wa, ∀ bs, writes income prev (as ++ bs) = (writes income p bs).map (fun w => wa ++ w) := by
  induction as generalizing prev with
  | nil =>
    simp only [limitAfter, Option.some.injEq] at hp
    subst hp
    exact ⟨[], fun bs => by simp⟩
  | cons a rest ih =>
    rcases a with ⟨r, _ | u⟩
    · simp [limitAfter] at hp
    · rw [limitAfter_cons_some] at hp
      split_ifs at hp with hle
      obtain ⟨wa, hwa⟩ := ih u hp
      refine ⟨bracketWrite income prev ⟨r, some u⟩ ++ wa, fun bs => ?_⟩
      rw [List.cons_append, writes_cons_some, if_neg hle, hwa bs, Option.map_map]
      congr 1
      funext w
      simp

/-- With rates that are not negative, no write is negative. -/
theorem writes_nonneg (income : ℚ) (bs : List TaxBracket) (prev : ℚ) (w : List (ℚ × ℚ))
    (hrate : ∀ b ∈ bs, 0 ≤ b.Rate) (hw : writes income prev bs = some w) :
    ∀ e ∈ w, 0 ≤ e.2 := by
  induction bs generalizing prev w with
  | nil =>
    simp only [writes, Option.some.injEq] at hw
    subst hw
    simp
  | cons b rest ih =>
    rcases b with ⟨r, _ | u⟩
    · simp [writes] at hw
    · have hr : 0 ≤ r := hrate ⟨r, some u⟩ (List.mem_cons_self _ _)
      have hbw : ∀ e ∈ bracketWrite income prev ⟨r, some u⟩, 0 ≤ e.2 := by
        intro e he
        simp only [bracketWrite] at he
        split_ifs at he with hpos
        · simp only [List.mem_singleton] at he
          rw [he]
          exact mul_nonneg (le_of_lt hpos) (div_nonneg hr (by norm_num))
        · simp at he
      rw [writes_cons_some] at hw
      split_ifs at hw with hle
      · simp only [Option.some.injEq] at hw
        subst hw
        exact hbw
      · cases hrest : writes income u rest with
        | none => simp [hrest] at hw
        | some w' =>
          simp only [hrest, Option.map_some', Option.some.injEq] at hw
          subst hw
          intro e he
          rcases List.mem_append.mp he with h | h
          · exact hbw e h
          · exact ih u w' (fun b hb => hrate b (List.mem_cons_of_mem _ hb)) hrest e h

/-- On bounded ascending brackets the run returns and its total is the reference sum. -/
theorem calculateTax_of_boundedAscending (income : ℚ) (bs : List TaxBracket)
    (hasc : BoundedAscending 0 bs) :
    ∃ d, CalculateTax income bs = some (marginalSum income bs, d) := by
  obtain ⟨w, hw, hsum⟩ := writes_boundedAscending income bs 0 hasc
  exact ⟨applyWrites [] w, by simp [CalculateTax_eq_writes, hw, hsum, marginalSum]⟩

/-! ## The bracket loop: claims about `CalculateTax` -/

/-- C1 (defect of the code): CalculateTax is not total on well-formed bracket sets.
The list of brackets with bounds 10000, 40000 and a last bracket without an upper
bound satisfies the ordering invariant, and with income 50000 the loop reaches the
last bracket and panics on `*bracket.UpTo` instead of returning. -/
theorem CalculateTax_panics_on_ordered_set :
    BracketSetOrdered [⟨10, some 10000⟩, ⟨22, some 40000⟩, ⟨30, none⟩] ∧
      CalculateTax 50000 [⟨10, some 10000⟩, ⟨22, some 40000⟩, ⟨30, none⟩] = none := by
  refine ⟨?_, ?_⟩
  · simp [BracketSetOrdered]
    norm_num
  · simp [CalculateTax_eq_writes, writes]
    norm_num

/-- C2 (defect of the code): for a bounded bracket followed by a bracket without an
upper bound, every income above the bound makes CalculateTax panic at the second
bracket, so it returns neither the total nor the breakdown the claim states. -/
theorem CalculateTax_open_top_bracket_panics (r₁ r₂ b income : ℚ) (hb : b < income) :
    CalculateTax income [⟨r₁, some b⟩, ⟨r₂, none⟩] = none := by
  simp [CalculateTax_eq_writes, writes, not_le.mpr hb]

/-- The example of the specification: brackets 10% up to 1000 and 20% above, income 1500. -/
theorem CalculateTax_open_top_bracket_panics_witness :
    (1000 : ℚ) < 1500 ∧ CalculateTax 1500 [⟨10, some 1000⟩, ⟨20, none⟩] = none :=
  ⟨by norm_num, CalculateTax_open_top_bracket_panics 10 20 1000 1500 (by norm_num)⟩

/-- C3 (counterexample): with income 0 and a first bracket whose upper bound is
negative, the loop goes on to the second bracket, which is taxed: the result is
total 20 and breakdown {20: 20}, not total 0 and an empty breakdown. -/
theorem CalculateTax_zero_income_negative_bound :
    (0 : ℚ) ≤ 0 ∧
      CalculateTax 0 [⟨10, some (-100)⟩, ⟨20, some 50⟩] = some (20, [(20, 20)]) ∧
      CalculateTax 0 [⟨10, some (-100)⟩, ⟨20, some 50⟩] ≠ some (0, []) := by
  have h : CalculateTax 0 [⟨10, some (-100)⟩, ⟨20, some 50⟩] = some (20, [(20, 20)]) := by
    simp [CalculateTax, calcLoop, mapSet]
    norm_num
  refine ⟨le_refl 0, h, ?_⟩
  rw [h]
  simp

/-- C3 (amended): for every income <= 0 and every bracket list that is empty or
whose first bracket has an upper bound >= income (in particular any bound >= 0),
CalculateTax returns totalTax = 0 and an empty breakdown. -/
theorem CalculateTax_nonpositive_income (income : ℚ) (bs : List TaxBracket)
    (hinc : income ≤ 0)
    (hfirst : ∀ b ∈ bs.head?, ∃ u, b.UpTo = some u ∧ income ≤ u) :
    CalculateTax income bs = some (0, []) := by
  cases bs with
  | nil => rfl
  | cons b rest =>
    obtain ⟨u, hu, hle⟩ := hfirst b (by simp)
    rcases b with ⟨r, ub⟩
    simp only at hu
    subst hu
    have hta : ¬ taxableAmount income 0 (some u) > 0 := by
      rw [taxableAmount_some, min_eq_left hle]
      simpa using hinc
    simp [CalculateTax, calcLoop_bounded, hle, bracketWrite, hta, writesSum_nil, applyWrites_nil]

/-- Income -5 with a first bracket bounded by 1000. -/
theorem CalculateTax_nonpositive_income_witness :
    CalculateTax (-5) [⟨10, some 1000⟩, ⟨20, none⟩] = some (0, []) :=
  CalculateTax_nonpositive_income (-5) [⟨10, some 1000⟩, ⟨20, none⟩] (by norm_num)
    (by
      intro b hb
      simp only [List.head?_cons, Option.mem_def, Option.some.injEq] at hb
      subst hb
      exact ⟨1000, rfl, by norm_num⟩)

/-- C4: for bounded brackets with strictly ascending positive upper bounds and every
income, CalculateTax returns, and its totalTax is the marginal-rate reference sum:
the sum over i of max(0, min(income, b_i) - b_(i-1)) * r_i / 100, with b_0 = 0. -/
theorem CalculateTax_total_eq_marginalSum (income : ℚ) (bs : List TaxBracket)
    (hasc : BoundedAscending 0 bs) :
    ∃ d, CalculateTax income bs = some (marginalSum income bs, d) :=
  calculateTax_of_boundedAscending income bs hasc

/-- Brackets 10% up to 1000 and 20% up to 3000, income 2500. -/
theorem CalculateTax_total_eq_marginalSum_witness :
    BoundedAscending 0 [⟨10, some 1000⟩, ⟨20, some 3000⟩] ∧
      ∃ d, CalculateTax 2500 [⟨10, some 1000⟩, ⟨20, some 3000⟩] =
        some (marginalSum 2500 [⟨10, some 1000⟩, ⟨20, some 3000⟩], d) :=
  have h : BoundedAscending 0 [⟨10, some 1000⟩, ⟨20, some 3000⟩] :=
    ⟨1000, rfl, by norm_num, 3000, rfl, by norm_num, trivial⟩
  ⟨h, CalculateTax_total_eq_marginalSum 2500 _ h⟩

/-- C5: when the first brackets of the list are bounded with strictly ascending
positive upper bounds and the income equals the upper bound of the last of them,
CalculateTax returns what it returns on these first brackets alone, whatever
follows them (a bracket without an upper bound included): the loop stops at that
bracket, and the total is the marginal-rate sum of the brackets up to it. -/
theorem CalculateTax_income_at_bound (income : ℚ) (pre post : List TaxBracket)
    (hasc : BoundedAscending 0 pre) (hlast : lastBound pre = some income) :
    CalculateTax income (pre ++ post) = CalculateTax income pre ∧
      ∃ d, CalculateTax income pre = some (marginalSum income pre, d) := by
  refine ⟨?_, calculateTax_of_boundedAscending income pre hasc⟩
  rw [CalculateTax_eq_writes, CalculateTax_eq_writes,
    writes_append_of_lastBound income pre post 0 hasc hlast]

/-- The example of the specification: income 1000 at the bound of the first bracket gives
total 100 and breakdown {10: 100}. -/
theorem CalculateTax_income_at_bound_witness :
    BoundedAscending 0 [⟨10, some 1000⟩] ∧ lastBound [⟨10, some 1000⟩] = some 1000 ∧
      CalculateTax 1000 ([⟨10, some 1000⟩] ++ [⟨20, none⟩]) = CalculateTax 1000 [⟨10, some 1000⟩] ∧
      CalculateTax 1000 [⟨10, some 1000⟩, ⟨20, none⟩] = some (100, [(10, 100)]) :=
  have h : BoundedAscending 0 [⟨10, some 1000⟩] := ⟨1000, rfl, by norm_num, trivial⟩
  have hl : lastBound [⟨10, some 1000⟩] = some 1000 := by simp [lastBound]
  ⟨h, hl, (CalculateTax_income_at_bound 1000 [⟨10, some 1000⟩] [⟨20, none⟩] h hl).1, by
    simp [CalculateTax, calcLoop, mapSet]
    norm_num⟩

/-- C6: for every bracket list whose rates are pairwise distinct and every income
for which CalculateTax returns a result, the sum of the values of the returned
breakdown equals the returned totalTax. -/
theorem breakdown_sum_eq_totalTax (income : ℚ) (bs : List TaxBracket) (t : ℚ) (d : Breakdown)
    (hrates : (bs.map TaxBracket.Rate).Nodup)
    (hret : CalculateTax income bs = some (t, d)) :
    mapSum d = t := by
  rw [CalculateTax_eq_writes] at hret
  cases hw : writes income 0 bs with
  | none => simp [hw] at hret
  | some w =>
    simp only [hw, Option.map_some', Option.some.injEq, Prod.mk.injEq] at hret
    obtain ⟨ht, hd⟩ := hret
    have hnd : (w.map Prod.fst).Nodup := (writes_keys_sublist income bs 0 w hw).nodup hrates
    rw [← hd, ← ht, mapSum_applyWrites_of_nodup [] w List.Pairwise.nil hnd (fun _ _ => rfl),
      mapSum_nil, zero_add]

/-- Brackets 10% up to 1000 and 20% up to 3000, income 2500: total 400 and breakdown
{10: 100, 20: 300}. -/
theorem breakdown_sum_eq_totalTax_witness :
    CalculateTax 2500 [⟨10, some 1000⟩, ⟨20, some 3000⟩] = some (400, [(10, 100), (20, 300)]) ∧
      mapSum [(10, 100), (20, 300)] = 400 :=
  have h : CalculateTax 2500 [⟨10, some 1000⟩, ⟨20, some 3000⟩] =
      some (400, [(10, 100), (20, 300)]) := by
    simp [CalculateTax, calcLoop, mapSet]
    norm_num
  ⟨h, breakdown_sum_eq_totalTax 2500 [⟨10, some 1000⟩, ⟨20, some 3000⟩] 400
    [(10, 100), (20, 300)] (by simp) h⟩

/-- The shape of the writes of a run in which two brackets `x` and `y` are reached
with a positive taxable amount. -/
theorem writes_two_contributing (income : ℚ) (pre mid post : List TaxBracket)
    (x y : TaxBracket) (p q : ℚ) (w : List (ℚ × ℚ))
    (hx : limitAfter income 0 pre = some p) (hxpos : 0 < taxableAmount income p x.UpTo)
    (hy : limitAfter income 0 (pre ++ x :: mid) = some q)
    (hypos : 0 < taxableAmount income q y.UpTo)
    (hw : writes income 0 (pre ++ x :: (mid ++ y :: post)) = some w) :
    ∃ w₁ w₂ w₃, w = w₁ ++ (x.Rate, taxableAmount income p x.UpTo * (x.Rate / 100)) ::
        (w₂ ++ (y.Rate, taxableAmount income q y.UpTo * (y.Rate / 100)) :: w₃) ∧
      (w₃.map Prod.fst).Sublist (post.map TaxBracket.Rate) := by
  rw [limitAfter_append, hx] at hy
  simp only [Option.some_bind] at hy
  rcases x with ⟨rx, _ | ux⟩
  · simp [limitAfter] at hy
  rcases y with ⟨ry, _ | uy⟩
  · obtain ⟨w₁, hw₁⟩ := writes_append_of_limitAfter income (pre ++ ⟨rx, some ux⟩ :: mid) 0 q
      (by rw [limitAfter_append, hx]; exact hy)
    have h := hw₁ (⟨ry, none⟩ :: post)
    rw [List.append_assoc, List.cons_append, hw, writes_cons_none] at h
    simp at h
  rw [limitAfter_cons_some] at hy
  split_ifs at hy with hle
  obtain ⟨w₁, hw₁⟩ := writes_append_of_limitAfter income pre 0 p hx
  obtain ⟨w₂, hw₂⟩ := writes_append_of_limitAfter income mid ux q hy
  have hbx : bracketWrite income p ⟨rx, some ux⟩ =
      [(rx, taxableAmount income p (some ux) * (rx / 100))] := by
    simp only [bracketWrite]
    rw [if_pos hxpos]
  have hby : bracketWrite income q ⟨ry, some uy⟩ =
      [(ry, taxableAmount income q (some uy) * (ry / 100))] := by
    simp only [bracketWrite]
    rw [if_pos hypos]
  have htail : ∃ w₃, writes income q (⟨ry, some uy⟩ :: post) =
      some ((ry, taxableAmount income q (some uy) * (ry / 100)) :: w₃) ∧
      (w₃.map Prod.fst).Sublist (post.map TaxBracket.Rate) := by
    rw [writes_cons_some, hby]
    by_cases hley : income ≤ uy
    · exact ⟨[], by simp [hley], by simp⟩
    · cases hpost : writes income uy post with
      | none =>
        rw [hw₁, writes_cons_some, if_neg hle, hw₂, writes_cons_some, if_neg hley, hpost] at hw
        simp at hw
      | some w₃ =>
        exact ⟨w₃, by simp [hley], writes_keys_sublist income post uy w₃ hpost⟩
  obtain ⟨w₃, hw₃, hsub⟩ := htail
  refine ⟨w₁, w₂, w₃, ?_, hsub⟩
  rw [hw₁, writes_cons_some, if_neg hle, hw₂, hw₃, hbx] at hw
  simp only [Option.map_some', Option.some.injEq] at hw
  rw [← hw]
  simp

/-- C7 (amended): in exact arithmetic, when two brackets with the same rate are both
reached with a positive taxable amount, the rate is positive and no rate of the
list is negative, then in the result of CalculateTax the total exceeds the sum of
the breakdown by at least the earlier bracket's tax, so the breakdown sum is less
than totalTax; and when no later bracket has that rate, the entry under the rate
is the later bracket's tax alone. -/
theorem overwrite_quirk (income : ℚ) (pre mid post : List TaxBracket) (x y : TaxBracket)
    (p q t : ℚ) (d : Breakdown)
    (hx : limitAfter income 0 pre = some p) (hxpos : 0 < taxableAmount income p x.UpTo)
    (hy : limitAfter income 0 (pre ++ x :: mid) = some q)
    (hypos : 0 < taxableAmount income q y.UpTo)
    (hrate : x.Rate = y.Rate) (hr : 0 < x.Rate)
    (hnn : ∀ b ∈ pre ++ x :: (mid ++ y :: post), 0 ≤ b.Rate)
    (hret : CalculateTax income (pre ++ x :: (mid ++ y :: post)) = some (t, d)) :
    mapSum d + taxableAmount income p x.UpTo * (x.Rate / 100) ≤ t ∧ mapSum d < t ∧
      ((∀ z ∈ post, z.Rate ≠ y.Rate) →
        mapGet y.Rate d = some (taxableAmount income q y.UpTo * (y.Rate / 100))) := by
  rw [CalculateTax_eq_writes] at hret
  cases hw : writes income 0 (pre ++ x :: (mid ++ y :: post)) with
  | none => simp [hw] at hret
  | some w =>
    simp only [hw, Option.map_some', Option.some.injEq, Prod.mk.injEq] at hret
    obtain ⟨ht, hd⟩ := hret
    have hnonneg := writes_nonneg income _ 0 w hnn hw
    obtain ⟨w₁, w₂, w₃, hshape, hsub⟩ :=
      writes_two_contributing income pre mid post x y p q w hx hxpos hy hypos hw
    rw [hrate] at hshape
    rw [hshape] at hnonneg
    obtain ⟨hsum, hentry⟩ := applyWrites_two_writes y.Rate _ _ w₁ w₂ w₃ hnonneg
    rw [← hshape, hd, ht] at hsum
    rw [← hshape, hd] at hentry
    have hpos : 0 < taxableAmount income p x.UpTo * (x.Rate / 100) :=
      mul_pos hxpos (div_pos hr (by norm_num))
    rw [← hrate] at hsum
    refine ⟨hsum, by linarith, fun hpost => hentry ?_⟩
    intro e he hk
    have hmem : e.1 ∈ post.map TaxBracket.Rate := hsub.subset (List.mem_map_of_mem Prod.fst he)
    obtain ⟨z, hz, hzr⟩ := List.mem_map.mp hmem
    exact hpost z hz (hzr.trans hk)

/-- The example of the specification: two brackets at rate 10 with bounds 500 and 1000,
income 1000, give total 100 and breakdown {10: 50}. -/
theorem overwrite_quirk_witness :
    CalculateTax 1000 [⟨10, some 500⟩, ⟨10, some 1000⟩] = some (100, [(10, 50)]) ∧
      mapSum [(10, 50)] + taxableAmount 1000 0 (some 500) * (10 / 100) ≤ 100 ∧
      mapSum [(10, 50)] < 100 ∧
      mapGet 10 [(10, 50)] = some (taxableAmount 1000 500 (some 1000) * (10 / 100)) :=
  have hret : CalculateTax 1000 ([] ++ ⟨10, some 500⟩ :: ([] ++ ⟨10, some 1000⟩ :: [])) =
      some (100, [(10, 50)]) := by
    simp [CalculateTax, calcLoop, mapSet]
    norm_num
  have h := overwrite_quirk 1000 [] [] [] ⟨10, some 500⟩ ⟨10, some 1000⟩ 0 500 100 [(10, 50)]
    rfl (by norm_num [taxableAmount]) (by norm_num [limitAfter])
    (by norm_num [taxableAmount]) rfl (by norm_num)
    (by
      intro b hb
      simp only [List.nil_append, List.mem_cons, List.mem_singleton, List.not_mem_nil,
        or_false] at hb
      rcases hb with h | h <;> rw [h] <;> norm_num)
    hret
  ⟨hret, h.1, h.2.1, h.2.2 (by simp)⟩

/-- C7 (counterexample): two brackets at rate 0 with bounds 500 and 1000 and income
1000 are both reached with a positive taxable amount; CalculateTax returns total 0
and breakdown {0: 0}, whose sum is not less than the total. -/
theorem overwrite_quirk_zero_rate :
    limitAfter 1000 0 [] = some 0 ∧ 0 < taxableAmount 1000 0 (some 500) ∧
      limitAfter 1000 0 [⟨0, some 500⟩] = some 500 ∧ 0 < taxableAmount 1000 500 (some 1000) ∧
      CalculateTax 1000 [⟨0, some 500⟩, ⟨0, some 1000⟩] = some (0, [(0, 0)]) ∧
      ¬ mapSum [(0, 0)] < 0 := by
  refine ⟨rfl, by norm_num [taxableAmount], by norm_num [limitAfter],
    by norm_num [taxableAmount], ?_, by simp [mapSum]⟩
  simp [CalculateTax, calcLoop, mapSet]
  norm_num

/-- C8: for a non-empty list of bounded brackets with strictly ascending positive
upper bounds and every income above the top bound, CalculateTax returns the same
totalTax and the same breakdown as for an income equal to the top bound, and it
does return. -/
theorem CalculateTax_above_top_bound (income top : ℚ) (bs : List TaxBracket)
    (hasc : BoundedAscending 0 bs) (hlast : lastBound bs = some top) (habove : top < income) :
    CalculateTax income bs = CalculateTax top bs ∧
      ∃ d, CalculateTax top bs = some (marginalSum top bs, d) := by
  refine ⟨?_, calculateTax_of_boundedAscending top bs hasc⟩
  rw [CalculateTax_eq_writes, CalculateTax_eq_writes,
    writes_above_top income top bs 0 hasc hlast habove]

/-- Brackets 10% up to 1000 and 20% up to 3000: income 5000 is taxed as income 3000,
total 500 and breakdown {10: 100, 20: 400}. -/
theorem CalculateTax_above_top_bound_witness :
    CalculateTax 5000 [⟨10, some 1000⟩, ⟨20, some 3000⟩] =
        CalculateTax 3000 [⟨10, some 1000⟩, ⟨20, some 3000⟩] ∧
      CalculateTax 5000 [⟨10, some 1000⟩, ⟨20, some 3000⟩] = some (500, [(10, 100), (20, 400)]) :=
  ⟨(CalculateTax_above_top_bound 5000 3000 [⟨10, some 1000⟩, ⟨20, some 3000⟩]
      ⟨1000, rfl, by norm_num, 3000, rfl, by norm_num, trivial⟩ (by simp [lastBound])
      (by norm_num)).1, by
    simp [CalculateTax, calcLoop, mapSet]
    norm_num⟩

/-! ## When the loop panics -/

theorem reachesOpenEnded_cons_none (income r : ℚ) (rest : List TaxBracket) :
    ReachesOpenEnded income (⟨r, none⟩ :: rest) :=
  ⟨⟨0, Nat.succ_pos _⟩, rfl, fun _ hj => absurd hj (Nat.not_lt_zero _)⟩

theorem reachesOpenEnded_cons_some (income r u : ℚ) (rest : List TaxBracket) :
    ReachesOpenEnded income (⟨r, some u⟩ :: rest) ↔ u < income ∧ ReachesOpenEnded income rest := by
  constructor
  · rintro ⟨⟨k, hklt⟩, hk, hall⟩
    cases k with
    | zero => simp at hk
    | succ k' =>
      obtain ⟨v, hv, hlt⟩ := hall ⟨0, Nat.succ_pos _⟩ (Fin.mk_lt_mk.mpr (Nat.succ_pos k'))
      simp only [List.get_eq_getElem, List.getElem_cons_zero, Option.mem_def,
        Option.some.injEq] at hv
      subst hv
      refine ⟨hlt, ⟨k', Nat.lt_of_succ_lt_succ hklt⟩, ?_, ?_⟩
      · simpa using hk
      · rintro ⟨j, hjlt⟩ hj
        have := hall ⟨j + 1, Nat.succ_lt_succ hjlt⟩
          (Fin.mk_lt_mk.mpr (Nat.succ_lt_succ (Fin.mk_lt_mk.mp hj)))
        simpa using this
  · rintro ⟨hlt, ⟨k, hklt⟩, hk, hall⟩
    refine ⟨⟨k + 1, Nat.succ_lt_succ hklt⟩, ?_, ?_⟩
    · simpa using hk
    · rintro ⟨j, hjlt⟩ hj
      cases j with
      | zero => exact ⟨u, rfl, hlt⟩
      | succ j' =>
        have := hall ⟨j', Nat.lt_of_succ_lt_succ hjlt⟩
          (Fin.mk_lt_mk.mpr (Nat.lt_of_succ_lt_succ (Fin.mk_lt_mk.mp hj)))
        simpa using this

/-- The run panics exactly when the loop reaches a bracket without an upper bound. -/
theorem writes_eq_none_iff (income : ℚ) (bs : List TaxBracket) (prev : ℚ) :
    writes income prev bs = none ↔ ReachesOpenEnded income bs := by
  induction bs generalizing prev with
  | nil =>
    constructor
    · intro h
      simp [writes] at h
    · rintro ⟨k, _⟩
      exact k.elim0
  | cons b rest ih =>
    rcases b with ⟨r, _ | u⟩
    · exact ⟨fun _ => reachesOpenEnded_cons_none income r rest, fun _ => rfl⟩
    · rw [writes_cons_some, reachesOpenEnded_cons_some, ← ih u]
      by_cases hle : income ≤ u
      · simp [hle, not_lt.mpr hle]
      · simp [hle, not_le.mp hle]

/-- In exact arithmetic, where every income is a number: CalculateTax fails (the nil
dereference of `UpTo`) if and only if the loop reaches a bracket without an upper
bound: there is an index k whose bracket has UpTo = nil such that every bracket
j < k has an upper bound with income above it; in every other case it returns a
result. -/
theorem CalculateTax_fails_iff (income : ℚ) (bs : List TaxBracket) :
    (CalculateTax income bs = none ↔ ReachesOpenEnded income bs) ∧
      ((∃ t d, CalculateTax income bs = some (t, d)) ↔ ¬ ReachesOpenEnded income bs) := by
  have h : CalculateTax income bs = none ↔ ReachesOpenEnded income bs := by
    rw [CalculateTax_eq_writes, Option.map_eq_none', writes_eq_none_iff]
  refine ⟨h, ?_⟩
  rw [← h]
  cases hc : CalculateTax income bs with
  | none => simp
  | some p => exact ⟨fun _ => by simp, fun _ => ⟨p.1, p.2, rfl⟩⟩

/-! ## When the loop panics, in float64 -/

theorem calcLoopF_cons_none (income r : F64) (rest : List TaxBracketF) (s : LoopStateF) :
    calcLoopF income (⟨r, none⟩ :: rest) s = none := rfl

/-- One iteration at a bounded bracket: the loop returns when `income <= bound`, and
goes on with some state otherwise. -/
theorem calcLoopF_cons_some (income r u : F64) (rest : List TaxBracketF) (s : LoopStateF) :
    (F64.le income u = true → ∃ p, calcLoopF income (⟨r, some u⟩ :: rest) s = some p) ∧
      (F64.le income u = false →
        ∃ s', calcLoopF income (⟨r, some u⟩ :: rest) s = calcLoopF income rest s') := by
  constructor
  · intro hle
    simp only [calcLoopF, hle, or_true, if_true]
    exact ⟨_, rfl⟩
  · intro hle
    simp only [calcLoopF, hle, reduceCtorEq, Bool.false_eq_true, or_self, if_false]
    exact ⟨_, rfl⟩

theorem reachesOpenEndedF_cons_none (income r : F64) (rest : List TaxBracketF) :
    ReachesOpenEndedF income (⟨r, none⟩ :: rest) :=
  ⟨⟨0, Nat.succ_pos _⟩, rfl, fun _ hj => absurd hj (Nat.not_lt_zero _)⟩

theorem reachesOpenEndedF_cons_some (income r u : F64) (rest : List TaxBracketF) :
    ReachesOpenEndedF income (⟨r, some u⟩ :: rest) ↔
      F64.le income u = false ∧ ReachesOpenEndedF income rest := by
  constructor
  · rintro ⟨⟨k, hklt⟩, hk, hall⟩
    cases k with
    | zero => simp at hk
    | succ k' =>
      obtain ⟨v, hv, hlt⟩ := hall ⟨0, Nat.succ_pos _⟩ (Fin.mk_lt_mk.mpr (Nat.succ_pos k'))
      simp only [List.get_eq_getElem, List.getElem_cons_zero, Option.mem_def,
        Option.some.injEq] at hv
      subst hv
      refine ⟨hlt, ⟨k', Nat.lt_of_succ_lt_succ hklt⟩, ?_, ?_⟩
      · simpa using hk
      · rintro ⟨j, hjlt⟩ hj
        have := hall ⟨j + 1, Nat.succ_lt_succ hjlt⟩
          (Fin.mk_lt_mk.mpr (Nat.succ_lt_succ (Fin.mk_lt_mk.mp hj)))
        simpa using this
  · rintro ⟨hlt, ⟨k, hklt⟩, hk, hall⟩
    refine ⟨⟨k + 1, Nat.succ_lt_succ hklt⟩, ?_, ?_⟩
    · simpa using hk
    · rintro ⟨j, hjlt⟩ hj
      cases j with
      | zero => exact ⟨u, rfl, hlt⟩
      | succ j' =>
        have := hall ⟨j', Nat.lt_of_succ_lt_succ hjlt⟩
          (Fin.mk_lt_mk.mpr (Nat.lt_of_succ_lt_succ (Fin.mk_lt_mk.mp hj)))
        simpa using this

/-- The float64 loop panics exactly when it reaches a bracket without an upper bound. -/
theorem calcLoopF_eq_none_iff (income : F64) (bs : List TaxBracketF) (s : LoopStateF) :
    calcLoopF income bs s = none ↔ ReachesOpenEndedF income bs := by
  induction bs generalizing s with
  | nil =>
    constructor
    · intro h
      simp [calcLoopF] at h
    · rintro ⟨k, _⟩
      exact k.elim0
  | cons b rest ih =>
    rcases b with ⟨r, _ | u⟩
    · exact ⟨fun _ => reachesOpenEndedF_cons_none income r rest, fun _ => rfl⟩
    · rw [reachesOpenEndedF_cons_some]
      cases hle : F64.le income u with
      | true =>
        obtain ⟨p, hp⟩ := (calcLoopF_cons_some income r u rest s).1 hle
        rw [hp]
        simp
      | false =>
        obtain ⟨s', hs'⟩ := (calcLoopF_cons_some income r u rest s).2 hle
        rw [hs', ih s']
        simp

/-- For operands that are not NaN, `x <= y` is false exactly when `y < x`. -/
theorem F64.le_eq_false_iff (x y : F64) (hx : x ≠ F64.nan) (hy : y ≠ F64.nan) :
    F64.le x y = false ↔ F64.lt y x = true := by
  cases x with
  | nan => exact absurd rfl hx
  | inf s =>
    cases y with
    | nan => exact absurd rfl hy
    | inf t => cases s <;> cases t <;> simp [F64.le, F64.lt]
    | fin m e => cases s <;> simp [F64.le, F64.lt]
  | fin m₁ e₁ =>
    cases y with
    | nan => exact absurd rfl hy
    | inf t => cases t <;> simp [F64.le, F64.lt]
    | fin m₂ e₂ =>
      simp only [F64.le, F64.lt, decide_eq_false_iff_not, decide_eq_true_eq, not_le, min_comm]

/-- For an income and bounds that are not NaN, the two ways to word the condition
agree. -/
theorem reachesOpenEndedF_iff_above (income : F64) (bs : List TaxBracketF)
    (hinc : income ≠ F64.nan) (hbs : ∀ b ∈ bs, b.UpTo ≠ some F64.nan) :
    ReachesOpenEndedF income bs ↔ ReachesOpenEndedAboveF income bs := by
  have key : ∀ j : Fin bs.length, (∃ u ∈ (bs.get j).UpTo, F64.le income u = false) ↔
      (∃ u ∈ (bs.get j).UpTo, F64.lt u income = true) := by
    intro j
    have hj := hbs _ (List.get_mem bs j.1 j.2)
    constructor
    · rintro ⟨u, hu, h⟩
      have hne : u ≠ F64.nan := fun hnan => hj (by rw [← hnan]; exact hu)
      exact ⟨u, hu, (F64.le_eq_false_iff income u hinc hne).mp h⟩
    · rintro ⟨u, hu, h⟩
      have hne : u ≠ F64.nan := fun hnan => hj (by rw [← hnan]; exact hu)
      exact ⟨u, hu, (F64.le_eq_false_iff income u hinc hne).mpr h⟩
  constructor
  · rintro ⟨k, hk, hall⟩
    exact ⟨k, hk, fun j hj => (key j).mp (hall j hj)⟩
  · rintro ⟨k, hk, hall⟩
    exact ⟨k, hk, fun j hj => (key j).mpr (hall j hj)⟩

/-- C11 (counterexample): with a NaN income and the brackets 10% up to 1000 and 20%
without an upper bound, the test `income <= 1000` is false, the loop goes on to
the second bracket and panics; the condition of the claim, `income > 1000`, is
false, so the claim predicts a return. -/
theorem CalculateTaxF_nan_income_panics :
    CalculateTaxF F64.nan
        [⟨F64.ofDecimal 10 0, some (F64.ofDecimal 1000 0)⟩, ⟨F64.ofDecimal 20 0, none⟩] = none ∧
      ¬ ReachesOpenEndedAboveF F64.nan
        [⟨F64.ofDecimal 10 0, some (F64.ofDecimal 1000 0)⟩, ⟨F64.ofDecimal 20 0, none⟩] := by
  decide

/-- C11 (amended): for every bracket list and every income (any float64 value),
CalculateTax fails (the nil dereference of `UpTo`) if and only if there is an index
k whose bracket has UpTo = nil such that every bracket j < k has an upper bound
for which the test `income <= upper bound` of the loop is false; in every other
case it returns a result.  When neither the income nor a bound is NaN, the test is
false exactly when income > upper bound. -/
theorem CalculateTaxF_fails_iff (income : F64) (bs : List TaxBracketF) :
    (CalculateTaxF income bs = none ↔ ReachesOpenEndedF income bs) ∧
      ((∃ t d, CalculateTaxF income bs = some (t, d)) ↔ ¬ ReachesOpenEndedF income bs) ∧
      (income ≠ F64.nan → (∀ b ∈ bs, b.UpTo ≠ some F64.nan) →
        (CalculateTaxF income bs = none ↔ ReachesOpenEndedAboveF income bs)) := by
  have h : CalculateTaxF income bs = none ↔ ReachesOpenEndedF income bs :=
    calcLoopF_eq_none_iff income bs _
  refine ⟨h, ?_, fun hinc hbs => h.trans (reachesOpenEndedF_iff_above income bs hinc hbs)⟩
  rw [← h]
  cases hc : CalculateTaxF income bs with
  | none => simp
  | some p => exact ⟨fun _ => by simp, fun _ => ⟨p.1, p.2, rfl⟩⟩

/-- Income 1500 with the brackets 10% up to 1000 and 20% without an upper bound: the
loop reaches the second bracket and panics. -/
theorem CalculateTaxF_fails_iff_witness :
    CalculateTaxF (F64.ofDecimal 1500 0)
        [⟨F64.ofDecimal 10 0, some (F64.ofDecimal 1000 0)⟩, ⟨F64.ofDecimal 20 0, none⟩] = none ∧
      ReachesOpenEndedAboveF (F64.ofDecimal 1500 0)
        [⟨F64.ofDecimal 10 0, some (F64.ofDecimal 1000 0)⟩, ⟨F64.ofDecimal 20 0, none⟩] :=
  have h := (CalculateTaxF_fails_iff (F64.ofDecimal 1500 0)
    [⟨F64.ofDecimal 10 0, some (F64.ofDecimal 1000 0)⟩, ⟨F64.ofDecimal 20 0, none⟩]).2.2
    (by decide) (by decide)
  ⟨by decide, h.mp (by decide)⟩

/-! ## Rounding and overflow: the bounds on the total in float64 -/

/-- C13 (counterexample): brackets 100% up to 0.3 and 100% up to 0.9 and income 0.9,
all as float64: the bounds are positive and ascending, the rates are in [0, 100],
the income is not negative.  The second taxable amount 0.9 - 0.3 rounds to
0.6000000000000001 and CalculateTax returns the total 0.9000000000000001, which is
above the income. -/
theorem CalculateTaxF_total_above_income :
    F64.lt F64.zero (F64.ofDecimal 3 (-1)) = true ∧
      F64.lt (F64.ofDecimal 3 (-1)) (F64.ofDecimal 9 (-1)) = true ∧
      F64.le F64.zero (F64.ofDecimal 100 0) = true ∧
      F64.le (F64.ofDecimal 100 0) (F64.ofDecimal 100 0) = true ∧
      F64.le F64.zero (F64.ofDecimal 9 (-1)) = true ∧
      CalculateTaxF (F64.ofDecimal 9 (-1))
          [⟨F64.ofDecimal 100 0, some (F64.ofDecimal 3 (-1))⟩,
            ⟨F64.ofDecimal 100 0, some (F64.ofDecimal 9 (-1))⟩] =
        some (F64.fin 4053239664633447 (-52),
          [(F64.fin 25 2, F64.fin 1351079888211149 (-51))]) ∧
      F64.le (F64.fin 4053239664633447 (-52)) (F64.ofDecimal 9 (-1)) = false ∧
      F64.lt (F64.ofDecimal 9 (-1)) (F64.fin 4053239664633447 (-52)) = true := by
  decide

set_option exponentiation.threshold 5000 in
/-- C14 (counterexample): brackets 5% up to -1e308 and 0% up to 1e308 and income
1e308, all as float64: every bracket has an upper bound and no rate is negative.
The second taxable amount 1e308 - (-1e308) overflows to +Inf, its tax Inf * 0 is
NaN, and CalculateTax returns the total NaN and the breakdown {0: NaN}: neither
the total nor the entry is >= 0. -/
theorem CalculateTaxF_total_nan :
    F64.le F64.zero (F64.ofDecimal 5 0) = true ∧ F64.le F64.zero (F64.ofDecimal 0 0) = true ∧
      CalculateTaxF (F64.ofDecimal 1 308)
          [⟨F64.ofDecimal 5 0, some (F64.ofDecimal (-1) 308)⟩,
            ⟨F64.ofDecimal 0 0, some (F64.ofDecimal 1 308)⟩] =
        some (F64.nan, [(F64.fin 0 0, F64.nan)]) ∧
      F64.le F64.zero F64.nan = false := by
  decide

/-- The overwrite in float64, where the sum of the breakdown can equal the total:
brackets 10% up to 0.01 and 10% up to 1e15 and income 1e15 give the total 1e14 and
the breakdown {10: 1e14}; the first bracket's tax 0.001 is lost in the rounding of
the total. -/
theorem CalculateTaxF_overwrite_absorbed :
    CalculateTaxF (F64.ofDecimal 1 15)
        [⟨F64.ofDecimal 10 0, some (F64.ofDecimal 1 (-2))⟩,
          ⟨F64.ofDecimal 10 0, some (F64.ofDecimal 1 15)⟩] =
      some (F64.ofDecimal 1 14, [(F64.ofDecimal 10 0, F64.ofDecimal 1 14)]) := by
  decide

/-! ## Bounds on the total -/

theorem upperBounds_cons_some (r u : ℚ) (rest : List TaxBracket) :
    upperBounds (⟨r, some u⟩ :: rest) = u :: upperBounds rest := by
  simp [upperBounds, List.filterMap_cons]

/-- The reference sum does not decrease with the income, for rates that are not
negative. -/
theorem marginalSumFrom_mono (bs : List TaxBracket) (prev x y : ℚ)
    (hasc : BoundedAscending prev bs) (hrate : ∀ b ∈ bs, 0 ≤ b.Rate) (hxy : x ≤ y) :
    marginalSumFrom prev x (bs.map TaxBracket.Rate) (upperBounds bs) ≤
      marginalSumFrom prev y (bs.map TaxBracket.Rate) (upperBounds bs) := by
  induction bs generalizing prev with
  | nil => simp [upperBounds, marginalSumFrom_nil]
  | cons b rest ih =>
    obtain ⟨u, hu, _, hrest⟩ := hasc
    rcases b with ⟨r, ub⟩
    simp only at hu
    subst hu
    have hr : 0 ≤ r / 100 :=
      div_nonneg (hrate ⟨r, some u⟩ (List.mem_cons_self _ _)) (by norm_num)
    have h1 : max 0 (min x u - prev) ≤ max 0 (min y u - prev) :=
      max_le_max (le_refl 0) (sub_le_sub_right (min_le_min_right u hxy) prev)
    have h2 := mul_le_mul_of_nonneg_right h1 hr
    have h3 := ih u hrest (fun b hb => hrate b (List.mem_cons_of_mem _ hb))
    rw [List.map_cons, upperBounds_cons_some, marginalSumFrom_cons, marginalSumFrom_cons,
      mul_div_assoc, mul_div_assoc]
    exact add_le_add h2 h3

/-- With rates between 0 and 100 the reference sum is at most the income above the
starting bound. -/
theorem marginalSumFrom_le (bs : List TaxBracket) (prev income : ℚ)
    (hasc : BoundedAscending prev bs) (hrate : ∀ b ∈ bs, 0 ≤ b.Rate ∧ b.Rate ≤ 100) :
    marginalSumFrom prev income (bs.map TaxBracket.Rate) (upperBounds bs) ≤
      max 0 (income - prev) := by
  induction bs generalizing prev with
  | nil =>
    simp [upperBounds, marginalSumFrom_nil]
  | cons b rest ih =>
    obtain ⟨u, hu, hlt, hrest⟩ := hasc
    rcases b with ⟨r, ub⟩
    simp only at hu
    subst hu
    obtain ⟨hr0, hr100⟩ := hrate ⟨r, some u⟩ (List.mem_cons_self _ _)
    have hr1 : r / 100 ≤ 1 := by
      rw [div_le_one (by norm_num)]
      exact hr100
    have ha : 0 ≤ max 0 (min income u - prev) := le_max_left _ _
    have h2 : max 0 (min income u - prev) * (r / 100) ≤ max 0 (min income u - prev) := by
      have := mul_le_mul_of_nonneg_left hr1 ha
      rwa [mul_one] at this
    have h3 := ih u hrest (fun b hb => hrate b (List.mem_cons_of_mem _ hb))
    have h4 : max 0 (min income u - prev) + max 0 (income - u) ≤ max 0 (income - prev) := by
      rcases le_total income u with hiu | hiu
      · rw [min_eq_left hiu, max_eq_left (sub_nonpos.mpr hiu), add_zero]
      · rw [min_eq_right hiu, max_eq_right (sub_nonneg.mpr (le_of_lt hlt)),
          max_eq_right (sub_nonneg.mpr hiu),
          max_eq_right (sub_nonneg.mpr (le_trans (le_of_lt hlt) hiu))]
        linarith
    rw [List.map_cons, upperBounds_cons_some, marginalSumFrom_cons, mul_div_assoc]
    linarith

theorem writesSum_nonneg (w : List (ℚ × ℚ)) (hw : ∀ e ∈ w, 0 ≤ e.2) : 0 ≤ writesSum w := by
  induction w with
  | nil => simp [writesSum_nil]
  | cons e w ih =>
    rw [writesSum_cons]
    exact add_nonneg (hw e (List.mem_cons_self _ _))
      (ih (fun e' he' => hw e' (List.mem_cons_of_mem _ he')))

/-- A run over brackets that all have an upper bound returns. -/
theorem writes_of_all_bounded (income : ℚ) (bs : List TaxBracket) (prev : ℚ)
    (hb : ∀ b ∈ bs, b.UpTo ≠ none) : ∃ w, writes income prev bs = some w := by
  cases hw : writes income prev bs with
  | some w => exact ⟨w, rfl⟩
  | none =>
    obtain ⟨k, hk, _⟩ := (writes_eq_none_iff income bs prev).mp hw
    exact absurd hk (hb _ (List.get_mem bs k.1 k.2))

/-- C12: for every list of bounded brackets with strictly ascending positive upper
bounds and non-negative rates, and all incomes x <= y, CalculateTax returns for
both incomes and the totalTax for x is at most the totalTax for y. -/
theorem totalTax_monotone (bs : List TaxBracket) (x y : ℚ)
    (hasc : BoundedAscending 0 bs) (hrate : ∀ b ∈ bs, 0 ≤ b.Rate) (hxy : x ≤ y) :
    ∃ tx dx ty dy, CalculateTax x bs = some (tx, dx) ∧ CalculateTax y bs = some (ty, dy) ∧
      tx ≤ ty := by
  obtain ⟨dx, hx⟩ := calculateTax_of_boundedAscending x bs hasc
  obtain ⟨dy, hy⟩ := calculateTax_of_boundedAscending y bs hasc
  exact ⟨_, dx, _, dy, hx, hy, marginalSumFrom_mono bs 0 x y hasc hrate hxy⟩

/-- Brackets 10% up to 1000 and 20% up to 3000: the tax on 800 is 80, the tax on
2500 is 400. -/
theorem totalTax_monotone_witness :
    ∃ tx dx ty dy, CalculateTax 800 [⟨10, some 1000⟩, ⟨20, some 3000⟩] = some (tx, dx) ∧
      CalculateTax 2500 [⟨10, some 1000⟩, ⟨20, some 3000⟩] = some (ty, dy) ∧ tx ≤ ty :=
  totalTax_monotone [⟨10, some 1000⟩, ⟨20, some 3000⟩] 800 2500
    ⟨1000, rfl, by norm_num, 3000, rfl, by norm_num, trivial⟩
    (by
      intro b hb
      simp only [List.mem_cons, List.mem_singleton, List.not_mem_nil, or_false] at hb
      rcases hb with h | h <;> rw [h] <;> norm_num)
    (by norm_num)

/-- C13 (amended): in exact arithmetic, for every list of bounded brackets with
strictly ascending positive upper bounds and every rate in [0, 100], and every
income >= 0, CalculateTax returns and its totalTax is at most the income. -/
theorem totalTax_le_income (bs : List TaxBracket) (income : ℚ)
    (hasc : BoundedAscending 0 bs) (hrate : ∀ b ∈ bs, 0 ≤ b.Rate ∧ b.Rate ≤ 100)
    (hinc : 0 ≤ income) :
    ∃ t d, CalculateTax income bs = some (t, d) ∧ t ≤ income := by
  obtain ⟨d, hd⟩ := calculateTax_of_boundedAscending income bs hasc
  refine ⟨_, d, hd, ?_⟩
  have h := marginalSumFrom_le bs 0 income hasc hrate
  rw [sub_zero, max_eq_right hinc] at h
  exact h

/-- Brackets 10% up to 1000 and 100% up to 3000, income 2500. -/
theorem totalTax_le_income_witness :
    ∃ t d, CalculateTax 2500 [⟨10, some 1000⟩, ⟨100, some 3000⟩] = some (t, d) ∧ t ≤ 2500 :=
  totalTax_le_income [⟨10, some 1000⟩, ⟨100, some 3000⟩] 2500
    ⟨1000, rfl, by norm_num, 3000, rfl, by norm_num, trivial⟩
    (by
      intro b hb
      simp only [List.mem_cons, List.mem_singleton, List.not_mem_nil, or_false] at hb
      rcases hb with h | h <;> rw [h] <;> norm_num)
    (by norm_num)

/-- C14 (amended): in exact arithmetic, for every list of brackets that all have an
upper bound (in any order) and whose rates are all >= 0, and every income,
CalculateTax returns, its totalTax is >= 0 and every value of the breakdown is
>= 0. -/
theorem totalTax_nonneg (bs : List TaxBracket) (income : ℚ)
    (hb : ∀ b ∈ bs, b.UpTo ≠ none) (hrate : ∀ b ∈ bs, 0 ≤ b.Rate) :
    ∃ t d, CalculateTax income bs = some (t, d) ∧ 0 ≤ t ∧ ∀ e ∈ d, 0 ≤ e.2 := by
  obtain ⟨w, hw⟩ := writes_of_all_bounded income bs 0 hb
  have hnn := writes_nonneg income bs 0 w hrate hw
  exact ⟨writesSum w, applyWrites [] w, by simp [CalculateTax_eq_writes, hw],
    writesSum_nonneg w hnn, nonneg_applyWrites [] w (by simp) hnn⟩

/-- Brackets with bounds out of order, 20% up to 3000 then 10% up to 1000, and a
income above both bounds. -/
theorem totalTax_nonneg_witness :
    ∃ t d, CalculateTax 5000 [⟨20, some 3000⟩, ⟨10, some 1000⟩] = some (t, d) ∧ 0 ≤ t ∧
      ∀ e ∈ d, 0 ≤ e.2 :=
  totalTax_nonneg [⟨20, some 3000⟩, ⟨10, some 1000⟩] 5000
    (by
      intro b hb
      simp only [List.mem_cons, List.mem_singleton, List.not_mem_nil, or_false] at hb
      rcases hb with h | h <;> rw [h] <;> simp)
    (by
      intro b hb
      simp only [List.mem_cons, List.mem_singleton, List.not_mem_nil, or_false] at hb
      rcases hb with h | h <;> rw [h] <;> norm_num)

/-! ## The loader's sort: ordering -/

theorem bracketLess_asymm (a b : TaxBracket) (h : bracketLess a b = true) :
    bracketLess b a = false := by
  rcases a with ⟨ra, _ | u⟩ <;> rcases b with ⟨rb, _ | v⟩ <;> simp [bracketLess] at h ⊢
  exact le_of_lt h

theorem bracketLess_negTrans (a b c : TaxBracket) (h : bracketLess a c = true) :
    bracketLess a b = true ∨ bracketLess b c = true := by
  rcases a with ⟨ra, _ | u⟩ <;> rcases b with ⟨rb, _ | v⟩ <;> rcases c with ⟨rc, _ | x⟩ <;>
    simp [bracketLess] at h ⊢
  by_cases huv : u < v
  · exact Or.inl huv
  · exact Or.inr (lt_of_le_of_lt (not_lt.mp huv) h)

theorem mem_insertOrdered {α : Type} (less : α → α → Bool) (x : α) (l : List α) (e : α) :
    e ∈ insertOrdered less x l ↔ e = x ∨ e ∈ l := by
  induction l with
  | nil => simp [insertOrdered]
  | cons y ys ih =>
    simp only [insertOrdered]
    split_ifs
    · simp only [List.mem_cons, ih]
      constructor
      · rintro (h | h | h)
        · exact Or.inr (Or.inl h)
        · exact Or.inl h
        · exact Or.inr (Or.inr h)
      · rintro (h | h | h)
        · exact Or.inr (Or.inl h)
        · exact Or.inl h
        · exact Or.inr (Or.inr h)
    · simp only [List.mem_cons]

theorem perm_insertOrdered {α : Type} (less : α → α → Bool) (x : α) (l : List α) :
    (insertOrdered less x l).Perm (x :: l) := by
  induction l with
  | nil => exact List.Perm.refl _
  | cons y ys ih =>
    simp only [insertOrdered]
    split_ifs
    · exact (List.Perm.cons y ih).trans (List.Perm.swap x y ys)
    · exact List.Perm.refl _

theorem perm_sortSlice {α : Type} (less : α → α → Bool) (l : List α) :
    (sortSlice less l).Perm l := by
  induction l with
  | nil => exact List.Perm.refl _
  | cons x xs ih => exact (perm_insertOrdered less x _).trans (List.Perm.cons x ih)

/-- Insertion keeps a list ordered, for a comparison that is asymmetric and
negatively transitive. -/
theorem orderedBy_insertOrdered {α : Type} (less : α → α → Bool)
    (hasym : ∀ a b, less a b = true → less b a = false)
    (hneg : ∀ a b c, less a c = true → less a b = true ∨ less b c = true)
    (x : α) (l : List α) (hl : OrderedBy less l) : OrderedBy less (insertOrdered less x l) := by
  induction l with
  | nil => simp [insertOrdered, OrderedBy]
  | cons y ys ih =>
    have hl' := List.pairwise_cons.mp hl
    simp only [insertOrdered]
    split_ifs with hyx
    · refine List.pairwise_cons.mpr ⟨?_, ih hl'.2⟩
      intro e he
      rcases (mem_insertOrdered less x ys e).mp he with h | h
      · rw [h]
        exact hasym y x hyx
      · exact hl'.1 e h
    · refine List.pairwise_cons.mpr ⟨?_, hl⟩
      have hyx' : less y x = false := by simpa using hyx
      intro e he
      rcases List.mem_cons.mp he with h | h
      · rw [h]
        exact hyx'
      · by_contra hex
        have hex' : less e x = true := by simpa using hex
        rcases hneg e y x hex' with h1 | h1
        · rw [hl'.1 e h] at h1
          exact Bool.false_ne_true h1
        · rw [hyx'] at h1
          exact Bool.false_ne_true h1

theorem orderedBy_sortSlice {α : Type} (less : α → α → Bool)
    (hasym : ∀ a b, less a b = true → less b a = false)
    (hneg : ∀ a b c, less a c = true → less a b = true ∨ less b c = true)
    (l : List α) : OrderedBy less (sortSlice less l) := by
  induction l with
  | nil => exact List.Pairwise.nil
  | cons x xs ih => exact orderedBy_insertOrdered less hasym hneg x _ ih

/-- Every list ordered by the loader's comparison has its open-ended brackets at the
end and its bounded brackets in non-decreasing order of upper bound. -/
theorem ordering_of_orderedBy (out : List TaxBracket) (h : OrderedBy bracketLess out) :
    OpenEndedLast out ∧ BoundsNonDecreasing out := by
  constructor
  · refine List.Pairwise.imp ?_ h
    intro a b hba ha
    rcases a with ⟨ra, _ | u⟩ <;> rcases b with ⟨rb, _ | v⟩ <;> simp [bracketLess] at hba ha ⊢
  · rw [BoundsNonDecreasing, upperBounds, List.pairwise_filterMap]
    refine List.Pairwise.imp ?_ h
    intro a b hba u hu v hv
    rcases a with ⟨ra, ua⟩
    rcases b with ⟨rb, ub⟩
    simp only [Option.mem_def] at hu hv
    subst hu hv
    simpa [bracketLess] using hba

/-- C9: for every input list of brackets, the list produced by the sort of
LoadConfig is a rearrangement of the input in which no bracket with an upper bound
comes after a bracket without one, and the brackets that have an upper bound
appear in non-decreasing order of upper bound. -/
theorem sortBrackets_ordering (input : List TaxBracket) :
    (sortBrackets input).Perm input ∧ OpenEndedLast (sortBrackets input) ∧
      BoundsNonDecreasing (sortBrackets input) :=
  ⟨perm_sortSlice bracketLess input,
    ordering_of_orderedBy _
      (orderedBy_sortSlice bracketLess bracketLess_asymm bracketLess_negTrans input)⟩

theorem bracketLess_irrefl (a : TaxBracket) : bracketLess a a = false := by
  rcases a with ⟨r, _ | u⟩ <;> simp [bracketLess]

theorem bracketLess_trans (a b c : TaxBracket) (hab : bracketLess a b = true)
    (hbc : bracketLess b c = true) : bracketLess a c = true := by
  rcases bracketLess_negTrans a c b hab with h | h
  · exact h
  · rw [bracketLess_asymm b c hbc] at h
    exact absurd h Bool.false_ne_true

/-- C15: the comparison function LoadConfig passes to sort.Slice is a strict weak
ordering on brackets: it is irreflexive and transitive and its incomparability
relation is transitive; two brackets without an upper bound are incomparable, and
a bracket without an upper bound is greater than every bracket that has one. -/
theorem bracketLess_strictWeakOrder :
    IsStrictWeakOrder TaxBracket (fun a b => bracketLess a b = true) ∧
      (∀ ra rb : ℚ, bracketLess ⟨ra, none⟩ ⟨rb, none⟩ = false) ∧
      (∀ ra u rb : ℚ, bracketLess ⟨ra, some u⟩ ⟨rb, none⟩ = true ∧
        bracketLess ⟨rb, none⟩ ⟨ra, some u⟩ = false) := by
  refine ⟨?_, fun _ _ => rfl, fun _ _ _ => ⟨rfl, rfl⟩⟩
  exact
    { irrefl := fun a h => by
        rw [bracketLess_irrefl a] at h
        exact Bool.false_ne_true h
      trans := fun a b c hab hbc => bracketLess_trans a b c hab hbc
      incomp_trans := fun a b c hab hbc => by
        constructor
        · intro hac
          rcases bracketLess_negTrans a b c hac with h | h
          · exact hab.1 h
          · exact hbc.1 h
        · intro hca
          rcases bracketLess_negTrans c b a hca with h | h
          · exact hbc.2 h
          · exact hab.2 h }

/-! ## LoadConfig: what is an error -/

theorem unmarshalFloat_ok_iff (target : ℚ) (j : JSON) :
    (∃ v, unmarshalFloat target j = .ok v) ↔ FitsFloat j := by
  cases j with
  | null => simp [unmarshalFloat, FitsFloat]
  | number q => cases h : float64OfRat q <;> simp [unmarshalFloat, FitsFloat, h]
  | bool b => simp [unmarshalFloat, FitsFloat]
  | string s => simp [unmarshalFloat, FitsFloat]
  | array items => simp [unmarshalFloat, FitsFloat]
  | object members => simp [unmarshalFloat, FitsFloat]

theorem unmarshalFloatPtr_ok_iff (j : JSON) :
    (∃ v, unmarshalFloatPtr j = .ok v) ↔ FitsFloat j := by
  cases j with
  | null => simp [unmarshalFloatPtr, FitsFloat]
  | number q => cases h : float64OfRat q <;> simp [unmarshalFloatPtr, FitsFloat, h]
  | bool b => simp [unmarshalFloatPtr, FitsFloat]
  | string s => simp [unmarshalFloatPtr, FitsFloat]
  | array items => simp [unmarshalFloatPtr, FitsFloat]
  | object members => simp [unmarshalFloatPtr, FitsFloat]

/-- The members of a bracket object are unmarshalled without error exactly when
every member named `rate` or `up_to` fits a `float64`. -/
theorem unmarshalBracketMembers_ok_iff (members : List (String × JSON)) (target : TaxBracket) :
    (∃ b, unmarshalBracketMembers target members = .ok b) ↔
      ∀ m ∈ members,
        keyMatches "rate" m.1 = true ∨ keyMatches "up_to" m.1 = true → FitsFloat m.2 := by
  induction members generalizing target with
  | nil => simp [unmarshalBracketMembers]
  | cons m rest ih =>
    simp only [unmarshalBracketMembers, List.forall_mem_cons]
    by_cases hr : keyMatches "rate" m.1 = true
    · rw [if_pos hr]
      have hfit := unmarshalFloat_ok_iff target.Rate m.2
      cases hf : unmarshalFloat target.Rate m.2 with
      | error e =>
        rw [hf] at hfit
        have hnot : ¬ FitsFloat m.2 := fun h => by simpa using hfit.mpr h
        simp [hr, hnot]
      | ok r =>
        rw [hf] at hfit
        have hyes : FitsFloat m.2 := hfit.mp ⟨r, rfl⟩
        simp only [ih, hr, true_or, hyes, imp_self, true_and]
    · rw [if_neg hr]
      by_cases hu : keyMatches "up_to" m.1 = true
      · rw [if_pos hu]
        have hfit := unmarshalFloatPtr_ok_iff m.2
        cases hf : unmarshalFloatPtr m.2 with
        | error e =>
          rw [hf] at hfit
          have hnot : ¬ FitsFloat m.2 := fun h => by simpa using hfit.mpr h
          simp [hu, hnot]
        | ok u =>
          rw [hf] at hfit
          have hyes : FitsFloat m.2 := hfit.mp ⟨u, rfl⟩
          simp only [ih, hu, or_true, hyes, imp_self, true_and]
      · rw [if_neg hu]
        simp [ih, hr, hu]

theorem unmarshalBracket_ok_iff (target : TaxBracket) (j : JSON) :
    (∃ b, unmarshalBracket target j = .ok b) ↔ FitsBracket j := by
  cases j with
  | null => simp [unmarshalBracket, FitsBracket]
  | object members => exact unmarshalBracketMembers_ok_iff members target
  | bool b => simp [unmarshalBracket, FitsBracket]
  | number q => simp [unmarshalBracket, FitsBracket]
  | string s => simp [unmarshalBracket, FitsBracket]
  | array items => simp [unmarshalBracket, FitsBracket]

theorem unmarshalBracketItems_ok_iff (items : List JSON) :
    (∃ bs, unmarshalBracketItems items = .ok bs) ↔ ∀ j ∈ items, FitsBracket j := by
  induction items with
  | nil => simp [unmarshalBracketItems]
  | cons j rest ih =>
    simp only [unmarshalBracketItems, List.forall_mem_cons]
    have hfit := unmarshalBracket_ok_iff ⟨0, none⟩ j
    cases hb : unmarshalBracket ⟨0, none⟩ j with
    | error e =>
      rw [hb] at hfit
      have hnot : ¬ FitsBracket j := fun h => by simpa using hfit.mpr h
      simp [hnot]
    | ok b =>
      rw [hb] at hfit
      have hyes : FitsBracket j := hfit.mp ⟨b, rfl⟩
      cases hrest : unmarshalBracketItems rest with
      | error e =>
        rw [hrest] at ih
        have hnot : ¬ ∀ j ∈ rest, FitsBracket j := fun h => by simpa using ih.mpr h
        simp [hnot]
      | ok bs =>
        rw [hrest] at ih
        have hall : ∀ j ∈ rest, FitsBracket j := ih.mp ⟨bs, rfl⟩
        simp only [hyes, true_and]
        exact ⟨fun _ => hall, fun _ => ⟨b :: bs, rfl⟩⟩

theorem unmarshalBrackets_ok_iff (j : JSON) :
    (∃ bs, unmarshalBrackets j = .ok bs) ↔ FitsBrackets j := by
  cases j with
  | null => simp [unmarshalBrackets, FitsBrackets]
  | array items => exact unmarshalBracketItems_ok_iff items
  | bool b => simp [unmarshalBrackets, FitsBrackets]
  | number q => simp [unmarshalBrackets, FitsBrackets]
  | string s => simp [unmarshalBrackets, FitsBrackets]
  | object members => simp [unmarshalBrackets, FitsBrackets]

theorem unmarshalConfigMembers_ok_iff (members : List (String × JSON)) (target : TaxConfig) :
    (∃ c, unmarshalConfigMembers target members = .ok c) ↔
      ∀ m ∈ members, keyMatches "brackets" m.1 = true → FitsBrackets m.2 := by
  induction members generalizing target with
  | nil => simp [unmarshalConfigMembers]
  | cons m rest ih =>
    simp only [unmarshalConfigMembers, List.forall_mem_cons]
    by_cases hk : keyMatches "brackets" m.1 = true
    · rw [if_pos hk]
      have hfit := unmarshalBrackets_ok_iff m.2
      cases hb : unmarshalBrackets m.2 with
      | error e =>
        rw [hb] at hfit
        have hnot : ¬ FitsBrackets m.2 := fun h => by simpa using hfit.mpr h
        simp [hk, hnot]
      | ok bs =>
        rw [hb] at hfit
        have hyes : FitsBrackets m.2 := hfit.mp ⟨bs, rfl⟩
        simp only [ih, hk, hyes, imp_self, true_and]
    · rw [if_neg hk]
      simp [ih, hk]

theorem unmarshalConfig_ok_iff (j : JSON) :
    (∃ c, unmarshalConfig j = .ok c) ↔ FitsConfig j := by
  cases j with
  | null => simp [unmarshalConfig, FitsConfig]
  | object members => exact unmarshalConfigMembers_ok_iff members ⟨[]⟩
  | bool b => simp [unmarshalConfig, FitsConfig]
  | number q => simp [unmarshalConfig, FitsConfig]
  | string s => simp [unmarshalConfig, FitsConfig]
  | array items => simp [unmarshalConfig, FitsConfig]

/-- LoadConfig returns an error for a document exactly when the document does not
have the expected structure. -/
theorem loadConfig_error_iff (j : JSON) :
    (∃ e, LoadConfig (.document j) = .error e) ↔ ¬ FitsConfig j := by
  rw [← unmarshalConfig_ok_iff]
  simp only [LoadConfig]
  cases h : unmarshalConfig j with
  | error e => simp
  | ok c => simp

theorem unmarshalBracket_entryWithoutRate (u : Option ℚ)
    (hu : ∀ q, u = some q → float64OfRat q ≠ none) :
    unmarshalBracket ⟨0, none⟩ (entryWithoutRate u) = .ok ⟨0, u.bind float64OfRat⟩ := by
  cases u with
  | none => rfl
  | some q =>
    have h1 : keyMatches "rate" "up_to" = false := by decide
    have h2 : keyMatches "up_to" "up_to" = true := by decide
    cases hq : float64OfRat q with
    | none => exact absurd hq (hu q rfl)
    | some v =>
      simp [entryWithoutRate, unmarshalBracket, unmarshalBracketMembers, h1, h2,
        unmarshalFloatPtr, hq]

theorem unmarshalBracketItems_entryWithoutRate (ups : List (Option ℚ))
    (hups : ∀ q, some q ∈ ups → float64OfRat q ≠ none) :
    unmarshalBracketItems (ups.map entryWithoutRate) =
      .ok (ups.map (fun u => (⟨0, u.bind float64OfRat⟩ : TaxBracket))) := by
  induction ups with
  | nil => rfl
  | cons u rest ih =>
    have hu : ∀ q, u = some q → float64OfRat q ≠ none :=
      fun q hq => hups q (hq ▸ List.mem_cons_self _ _)
    have hrest := ih (fun q hq => hups q (List.mem_cons_of_mem _ hq))
    simp [unmarshalBracketItems, unmarshalBracket_entryWithoutRate u hu, hrest]

theorem float64OfRat_thousand : float64OfRat 1000 = some 1000 := by
  have h : F64.ofRatio 1000 1 = F64.fin 125 3 := by decide
  simp only [float64OfRat, Rat.num_ofNat, Rat.den_ofNat, Nat.cast_ofNat, h]
  norm_num

/-- C10 (counterexample): the document `{"brackets": [{"up_to": 1000}]}` has a
bracket entry with no `rate`; LoadConfig returns no error but a config whose
bracket has rate 0. -/
theorem LoadConfig_accepts_missing_rate :
    LoadConfig (.document (.object [("brackets", .array [.object [("up_to", .number 1000)]])])) =
      .ok ⟨[⟨0, some 1000⟩]⟩ := by
  have h0 : keyMatches "brackets" "brackets" = true := by decide
  have h1 : keyMatches "rate" "up_to" = false := by decide
  have h2 : keyMatches "up_to" "up_to" = true := by decide
  simp [LoadConfig, unmarshalConfig, unmarshalConfigMembers, unmarshalBrackets,
    unmarshalBracketItems, unmarshalBracket, unmarshalBracketMembers, unmarshalFloatPtr,
    h0, h1, h2, sortBrackets, sortSlice, insertOrdered, float64OfRat_thousand]

/-- Members none of which is named `rate` leave `Rate` as it was. -/
theorem unmarshalBracketMembers_rate (members : List (String × JSON)) (target b : TaxBracket)
    (hno : ∀ m ∈ members, keyMatches "rate" m.1 = false)
    (h : unmarshalBracketMembers target members = .ok b) : b.Rate = target.Rate := by
  induction members generalizing target with
  | nil =>
    simp only [unmarshalBracketMembers, Except.ok.injEq] at h
    rw [← h]
  | cons m rest ih =>
    have hm : ¬ keyMatches "rate" m.1 = true := by
      rw [hno m (List.mem_cons_self _ _)]
      exact Bool.false_ne_true
    have hrest : ∀ m' ∈ rest, keyMatches "rate" m'.1 = false :=
      fun m' hm' => hno m' (List.mem_cons_of_mem _ hm')
    simp only [unmarshalBracketMembers, if_neg hm] at h
    by_cases hu : keyMatches "up_to" m.1 = true
    · rw [if_pos hu] at h
      cases hf : unmarshalFloatPtr m.2 with
      | error e => simp [hf] at h
      | ok u =>
        rw [hf] at h
        exact ih ⟨target.Rate, u⟩ hrest h
    · rw [if_neg hu] at h
      exact ih target hrest h

/-- Array elements that are objects without a `rate` member give as many brackets,
all of rate 0. -/
theorem unmarshalBracketItems_rate_zero (items : List JSON) (bs : List TaxBracket)
    (hitems : ∀ j ∈ items, ∃ members, j = .object members ∧
      ∀ m ∈ members, keyMatches "rate" m.1 = false)
    (h : unmarshalBracketItems items = .ok bs) :
    bs.length = items.length ∧ ∀ b ∈ bs, b.Rate = 0 := by
  induction items generalizing bs with
  | nil =>
    simp only [unmarshalBracketItems, Except.ok.injEq] at h
    rw [← h]
    simp
  | cons j rest ih =>
    obtain ⟨members, hj, hno⟩ := hitems j (List.mem_cons_self _ _)
    subst hj
    simp only [unmarshalBracketItems] at h
    cases hb : unmarshalBracket ⟨0, none⟩ (.object members) with
    | error e => simp [hb] at h
    | ok b =>
      rw [hb] at h
      cases hrest : unmarshalBracketItems rest with
      | error e => simp [hrest] at h
      | ok bs' =>
        rw [hrest] at h
        simp only [Except.ok.injEq] at h
        obtain ⟨hlen, hall⟩ := ih bs' (fun j' hj' => hitems j' (List.mem_cons_of_mem _ hj')) hrest
        have hb0 : b.Rate = 0 := unmarshalBracketMembers_rate members ⟨0, none⟩ b hno hb
        rw [← h]
        refine ⟨by simp [hlen], ?_⟩
        intro b' hb'
        rcases List.mem_cons.mp hb' with h' | h'
        · rw [h']
          exact hb0
        · exact hall b' h'

/-- C10 (amended): for every JSON configuration document, LoadConfig returns an
error and no config exactly when the document cannot be parsed into the expected
structure: a value has the wrong JSON type for its place (the document,
`brackets`, a bracket entry, `rate` or `up_to`) or a number in such a place is
beyond the range of float64.  A bracket entry without `rate` is not such a case: a
document of the expected structure whose bracket entries are objects without a
`rate` member is loaded, one bracket for each entry and every bracket with rate 0;
for entries that are empty or hold only an `up_to` number in range, the config is
the sorted list of the brackets with rate 0 and the bound the nearest float64. -/
theorem LoadConfig_error_iff_unfit (j : JSON) (items : List JSON) (ups : List (Option ℚ))
    (hitems : ∀ j ∈ items, ∃ members, j = .object members ∧
      ∀ m ∈ members, keyMatches "rate" m.1 = false)
    (hfit : FitsConfig (.object [("brackets", .array items)]))
    (hups : ∀ q, some q ∈ ups → float64OfRat q ≠ none) :
    ((∃ e, LoadConfig (.document j) = .error e) ↔ ¬ FitsConfig j) ∧
      (∃ c, LoadConfig (.document (.object [("brackets", .array items)])) = .ok c ∧
        c.Brackets.length = items.length ∧ ∀ b ∈ c.Brackets, b.Rate = 0) ∧
      LoadConfig (.document (.object [("brackets", .array (ups.map entryWithoutRate))])) =
        .ok ⟨sortBrackets (ups.map (fun u => (⟨0, u.bind float64OfRat⟩ : TaxBracket)))⟩ := by
  have h0 : keyMatches "brackets" "brackets" = true := by decide
  refine ⟨loadConfig_error_iff j, ?_, ?_⟩
  · have hbr : FitsBrackets (.array items) := hfit ("brackets", .array items) (by simp) h0
    obtain ⟨bs, hbs⟩ := (unmarshalBrackets_ok_iff (.array items)).mpr hbr
    obtain ⟨hlen, hall⟩ := unmarshalBracketItems_rate_zero items bs hitems hbs
    have hperm := perm_sortSlice bracketLess bs
    refine ⟨⟨sortBrackets bs⟩, ?_, ?_, ?_⟩
    · simp [LoadConfig, unmarshalConfig, unmarshalConfigMembers, h0, hbs]
    · rw [← hlen]
      exact hperm.length_eq
    · intro b hb
      exact hall b (hperm.subset hb)
  · simp [LoadConfig, unmarshalConfig, unmarshalConfigMembers, unmarshalBrackets,
      unmarshalBracketItems_entryWithoutRate ups hups, h0]

/-- A document whose `rate` is a string is an error; the document with the entries
`{"up_to": 1000, "label": "low"}` and `{}` is loaded as two brackets of rate 0; the
document with the entries `{"up_to": 1000}` and `{}` is loaded as the brackets
(0, 1000) and (0, nil). -/
theorem LoadConfig_error_iff_unfit_witness :
    (∃ e, LoadConfig
        (.document (.object [("brackets", .array [.object [("rate", .string "ten")]])])) =
          .error e) ∧
      (∃ c, LoadConfig (.document (.object [("brackets", .array
          [.object [("up_to", .number 1000), ("label", .string "low")], .object []])])) =
            .ok c ∧ c.Brackets.length = 2 ∧ ∀ b ∈ c.Brackets, b.Rate = 0) ∧
      LoadConfig (.document (.object [("brackets",
          .array ([some 1000, none].map entryWithoutRate))])) =
        .ok ⟨sortBrackets
          ([some 1000, none].map (fun u => (⟨0, u.bind float64OfRat⟩ : TaxBracket)))⟩ :=
  have h0 : keyMatches "brackets" "brackets" = true := by decide
  have h1 : keyMatches "rate" "rate" = true := by decide
  have h2 : keyMatches "rate" "up_to" = false := by decide
  have h3 : keyMatches "rate" "label" = false := by decide
  have h4 : keyMatches "up_to" "up_to" = true := by decide
  have h5 : keyMatches "up_to" "label" = false := by decide
  have h := LoadConfig_error_iff_unfit
    (.object [("brackets", .array [.object [("rate", .string "ten")]])])
    [.object [("up_to", .number 1000), ("label", .string "low")], .object []]
    [some 1000, none]
    (by
      intro j hj
      simp only [List.mem_cons, List.mem_singleton, List.not_mem_nil, or_false] at hj
      rcases hj with hj | hj
      · exact ⟨_, hj, by simp [h2, h3]⟩
      · exact ⟨_, hj, by simp⟩)
    (by
      intro m hm _
      simp only [List.mem_singleton] at hm
      subst hm
      intro j hj
      simp only [List.mem_cons, List.mem_singleton, List.not_mem_nil, or_false] at hj
      rcases hj with hj | hj
      · subst hj
        intro m hm hor
        simp only [List.mem_cons, List.mem_singleton, List.not_mem_nil, or_false] at hm
        rcases hm with hm | hm
        · subst hm
          simp [FitsFloat, float64OfRat_thousand]
        · subst hm
          simp [h3, h5] at hor
      · subst hj
        intro m hm
        simp at hm)
    (by
      intro q hq
      simp only [List.mem_cons, Option.some.injEq, reduceCtorEq, List.mem_singleton,
        List.not_mem_nil, or_false] at hq
      rw [hq, float64OfRat_thousand]
      simp)
  ⟨h.1.mpr (by simp [FitsConfig, FitsBrackets, FitsBracket, FitsFloat, h0, h1]), h.2.1, h.2.2⟩

end TaxCalc
